import Mathlib

/-!
Shallow embedding of the FastLinearMap repository (header `LinearHash`,
classes `LinearCoreMap<K,V>`, `LinearSet<K>`, `LinearMap<T>`), together with
proofs about the embedded operations.

Modelling conventions:
* `size_t` arithmetic is `Nat` with an explicit `% 2 ^ 64` wherever the C++
  computation can wrap (hash mixing, the sentinel trick inside `Erase`).
* The backing arrays `m_keys` / `m_values` / `m_used` are total functions
  `Nat → _`; `std::make_unique<T[]>` value-initialises, so fresh arrays are
  the constant default function.  All in-bounds accesses of the C++ code use
  indices masked to `< m_data_size`.
* The unbounded C++ probe loops are modelled with explicit fuel
  `m_data_size`; since every probe position is masked, the position sequence
  is periodic with period `m_data_size`, so the loop either stops within
  `m_data_size` iterations or never: `none` models divergence.
* The `double` load-factor comparisons are modelled exactly: the IEEE value
  of the literal `0.7` is `3152519739159347 / 2 ^ 52`, and for a power-of-two
  `m_data_size` and `m_count < 2 ^ 53` the divisions/multiplications compared
  against it are exact, so the rational comparison below coincides with the
  IEEE one.  (The one rounding-sensitive spot, `EnsureCapacity`'s
  `(size_t)((double)free * max_load_factor)`, is modelled as the exact
  truncated product; the IEEE product can differ from the exact one only in
  ties far beyond the sizes exercised here.)
-/

set_option maxRecDepth 4096
set_option linter.unusedSectionVars false
set_option linter.unusedVariables false

/-- The constant `golden_ratio = 11400714819323198485ULL` from
`LinearHash::HashImpl` (hash_id = 3). -/
def goldenConst : Nat := 11400714819323198485

/-- `2 ^ 64`, the modulus of `size_t` arithmetic. -/
def u64 : Nat := 2 ^ 64

/-- Numerator of the exact rational value of the IEEE double `0.7`
(`LinearHash::max_load_factor`); the value is `lfNum / 2 ^ 52`. -/
def lfNum : Nat := 3152519739159347

/-- Denominator of the exact rational value of the IEEE double `0.7`. -/
def lfDen : Nat := 2 ^ 52

/-- Fuel-driven binary digit count, auxiliary for `bitWidth`. -/
def bitWidthAux : Nat → Nat → Nat
  | 0, _ => 0
  | fuel + 1, n => if n = 0 then 0 else bitWidthAux fuel (n / 2) + 1

/-- Embeds `std::bit_width`: the number of binary digits of `n`. -/
def bitWidth (n : Nat) : Nat := bitWidthAux n n

/-- Embeds `LinearHash::FormatCapacity`:
`n = max(n, 8); return 1 << bit_width(n - 1)`. -/
def FormatCapacity (n : Nat) : Nat :=
  1 <<< bitWidth (max n 8 - 1)

/-- Embeds `LinearHash::HashImpl` with the compiled-in `hash_id = 3`
(golden-ratio branch): `x = n + 1; return (x * golden_ratio) & (data_size - 1)`,
all in `size_t` arithmetic. -/
def HashImpl (n dataSize : Nat) : Nat :=
  (((n + 1) % u64) * goldenConst) % u64 &&& (dataSize - 1)

/-- Embeds `LinearHash::GetSlot` for a hash function `hashF`:
`hash = HashImpl(m_hash(key), data_size); last_index = size - 1;
start = hash & last_index; return (start, last_index)`. -/
def slotOf {K : Type} (hashF : K → Nat) (key : K) (dataSize : Nat) : Nat × Nat :=
  let h := HashImpl (hashF key) dataSize
  (h &&& (dataSize - 1), dataSize - 1)

/-- Result of one run of the shared probe loop
(`for (auto i = start; ; i = (i + 1) & last_index)` checking `!m_used[i]`
first and `m_keys[i] == key` second). -/
inductive ProbeHit : Type where
  | empty (i : Nat)
  | found (i : Nat)
deriving DecidableEq

/-- The probe loop shared by `Contains` / `Get` / `Emplace` / `TryEmplaceImpl`
/ `EmplaceNoGrow` / `GetOrCreateImpl`: step `i = (i + 1) & mask`, stop with
`empty i` at the first unoccupied slot, `found i` at the first matching key.
`none` models a loop that never stops. -/
def probeLoop {K : Type} [DecidableEq K] (used : Nat → Bool) (keys : Nat → K)
    (key : K) (mask : Nat) : Nat → Nat → Option ProbeHit
  | 0, _ => none
  | fuel + 1, i =>
    if used i = false then some (ProbeHit.empty i)
    else if keys i = key then some (ProbeHit.found i)
    else probeLoop used keys key mask fuel ((i + 1) &&& mask)

/-- Embeds the state of `LinearCoreMap<K,V>` (fields of `LinearHash` plus the
three parallel arrays and the default sentinels). -/
structure LinearCoreMap (K V : Type) where
  hash : K → Nat
  count : Nat
  dataSize : Nat
  keys : Nat → K
  values : Nat → V
  used : Nat → Bool
  defaultKey : K
  defaultValue : V

namespace LinearCoreMap

variable {K V : Type} [DecidableEq K]

/-- `this->GetSlot(key, this->m_data_size)`. -/
def GetSlot (m : LinearCoreMap K V) (key : K) (dataSize : Nat) : Nat × Nat :=
  slotOf m.hash key dataSize

/-- The start index of `GetSlot` at the current capacity (the "home slot"). -/
def home (m : LinearCoreMap K V) (key : K) : Nat :=
  (m.GetSlot key m.dataSize).1

/-- One full probe from the home slot at the current capacity. -/
def probe (m : LinearCoreMap K V) (key : K) : Option ProbeHit :=
  probeLoop m.used m.keys key (m.GetSlot key m.dataSize).2 m.dataSize
    (m.GetSlot key m.dataSize).1

/-- Embeds `LinearCoreMap::Contains`. -/
def Contains (m : LinearCoreMap K V) (key : K) : Option Bool :=
  match m.probe key with
  | some (ProbeHit.found _) => some true
  | some (ProbeHit.empty _) => some false
  | none => none

/-- Embeds `LinearCoreMap::Get`: a hit returns the stored value, a miss
returns (a reference to) `m_default_value`. -/
def Get (m : LinearCoreMap K V) (key : K) : Option V :=
  match m.probe key with
  | some (ProbeHit.found i) => some (m.values i)
  | some (ProbeHit.empty _) => some m.defaultValue
  | none => none

/-- Embeds `LinearCoreMap::Size`. -/
def Size (m : LinearCoreMap K V) : Nat := m.count

/-- Embeds `LinearCoreMap::InsertNoGrow`: write the entry at slot `i` and
increment `m_count`, no growth check. -/
def InsertNoGrow (m : LinearCoreMap K V) (key : K) (value : V) (i : Nat) :
    LinearCoreMap K V :=
  { m with
    used := Function.update m.used i true
    keys := Function.update m.keys i key
    values := Function.update m.values i value
    count := m.count + 1 }

/-- The growth test `(double)m_count / (double)m_data_size > max_load_factor`
of `LinearCoreMap::Insert`, as the exact rational comparison (see the header
comment on floating point). -/
def growCheck (count dataSize : Nat) : Bool :=
  decide (lfNum * dataSize < count * lfDen)

/-- The new-array triple built by `Resize` (`m_keys_new`, `m_values_new`,
`m_used_new`). -/
structure NewArrays (K V : Type) where
  kn : Nat → K
  vn : Nat → V
  un : Nat → Bool

/-- Embeds `LinearCoreMap::EmplaceNewSize`: probe the new arrays at capacity
`newSize`, write the entry at the first unoccupied slot, overwrite the value
on a key match. -/
def EmplaceNewSize (m : LinearCoreMap K V) (a : NewArrays K V) (key : K)
    (value : V) (newSize : Nat) : Option (NewArrays K V) :=
  match probeLoop a.un a.kn key (slotOf m.hash key newSize).2 newSize
      (slotOf m.hash key newSize).1 with
  | some (ProbeHit.empty i) =>
    some { kn := Function.update a.kn i key
           vn := Function.update a.vn i value
           un := Function.update a.un i true }
  | some (ProbeHit.found i) =>
    some { a with vn := Function.update a.vn i value }
  | none => none

/-- The re-insertion pass of `LinearCoreMap::Resize`: walk the old slots in
index order, skip unoccupied ones, re-emplace the rest into the new arrays. -/
def resizeLoop (m : LinearCoreMap K V) (newSize : Nat) :
    List Nat → NewArrays K V → Option (NewArrays K V)
  | [], a => some a
  | i :: rest, a =>
    if m.used i then
      match m.EmplaceNewSize a (m.keys i) (m.values i) newSize with
      | some a2 => resizeLoop m newSize rest a2
      | none => none
    else resizeLoop m newSize rest a

/-- Embeds `LinearCoreMap::Resize`: fresh value-initialised arrays of size
`newSize`, re-insert every occupied old entry, swap the arrays in and set
`m_data_size = newSize` (`m_count` is untouched). -/
def Resize (m : LinearCoreMap K V) (newSize : Nat) : Option (LinearCoreMap K V) :=
  match resizeLoop m newSize (List.range m.dataSize)
      { kn := fun _ => m.defaultKey, vn := fun _ => m.defaultValue,
        un := fun _ => false } with
  | some a =>
    some { m with keys := a.kn, values := a.vn, used := a.un,
                  dataSize := newSize }
  | none => none

/-- Embeds `LinearCoreMap::Insert`: `InsertNoGrow`, then double the capacity
if the load factor now exceeds the threshold. -/
def Insert (m : LinearCoreMap K V) (key : K) (value : V) (i : Nat) :
    Option (LinearCoreMap K V) :=
  let m2 := m.InsertNoGrow key value i
  if growCheck m2.count m2.dataSize then m2.Resize (m2.dataSize * 2)
  else some m2

/-- Embeds `LinearCoreMap::InsertAndGrow`: write the entry, then resize to
twice the capacity unconditionally. -/
def InsertAndGrow (m : LinearCoreMap K V) (key : K) (value : V) (i : Nat) :
    Option (LinearCoreMap K V) :=
  let m2 := m.InsertNoGrow key value i
  m2.Resize (m2.dataSize * 2)

/-- Embeds `LinearCoreMap::Emplace` (insert-or-update). -/
def Emplace (m : LinearCoreMap K V) (key : K) (value : V) :
    Option (LinearCoreMap K V) :=
  match m.probe key with
  | some (ProbeHit.empty i) => m.Insert key value i
  | some (ProbeHit.found i) =>
    some { m with values := Function.update m.values i value }
  | none => none

/-- Embeds `LinearCoreMap::TryEmplaceImpl`: insert only if absent, report
whether an insertion happened. -/
def TryEmplaceImpl (m : LinearCoreMap K V) (key : K) (makeValue : Unit → V) :
    Option (Bool × LinearCoreMap K V) :=
  match m.probe key with
  | some (ProbeHit.empty i) =>
    (m.Insert key (makeValue ()) i).map (fun m2 => (true, m2))
  | some (ProbeHit.found _) => some (false, m)
  | none => none

/-- Embeds `LinearCoreMap::EmplaceNoGrow` (the batch-insert path). -/
def EmplaceNoGrow (m : LinearCoreMap K V) (key : K) (value : V) :
    Option (LinearCoreMap K V) :=
  match m.probe key with
  | some (ProbeHit.empty i) => some (m.InsertNoGrow key value i)
  | some (ProbeHit.found i) =>
    some { m with values := Function.update m.values i value }
  | none => none

/-- The reference re-resolution loop inside `GetOrCreateImpl` after a growth:
`for (auto j = start2; ; j = (j + 1) & last_index2) if (m_keys[j] == copy)
return m_values[j];` — note that it checks only the key array, not
`m_used`. -/
def keyScanLoop {K : Type} [DecidableEq K] (keys : Nat → K) (key : K)
    (mask : Nat) : Nat → Nat → Option Nat
  | 0, _ => none
  | fuel + 1, j =>
    if keys j = key then some j
    else keyScanLoop keys key mask fuel ((j + 1) &&& mask)

/-- Embeds `LinearCoreMap::GetOrCreateImpl`: on a hit return the stored
value; on a miss decide before writing whether the post-insert count would
exceed the threshold (`m_count + 1 > (size_t)((double)m_data_size *
max_load_factor)`), and either insert-and-grow then re-resolve in the grown
table, or insert in place. -/
def GetOrCreateImpl (m : LinearCoreMap K V) (key : K) (makeValue : Unit → V) :
    Option (V × LinearCoreMap K V) :=
  match m.probe key with
  | some (ProbeHit.found i) => some (m.values i, m)
  | some (ProbeHit.empty i) =>
    if m.count + 1 > lfNum * m.dataSize / lfDen then
      match m.InsertAndGrow key (makeValue ()) i with
      | some m2 =>
        match keyScanLoop m2.keys key (m2.GetSlot key m2.dataSize).2
            m2.dataSize (m2.GetSlot key m2.dataSize).1 with
        | some j => some (m2.values j, m2)
        | none => none
      | none => none
    else
      let m2 := m.InsertNoGrow key (makeValue ()) i
      some (m2.values i, m2)
  | none => none

/-- Embeds `LinearHash::EnsureCapacity`:
`free = m_data_size - m_count; free_lf = (size_t)((double)free *
max_load_factor); if (count < free_lf) return; need = count - free_lf;
Resize(FormatCapacity(m_data_size + need))`. -/
def EnsureCapacity (m : LinearCoreMap K V) (count : Nat) :
    Option (LinearCoreMap K V) :=
  let free := (m.dataSize + u64 - m.count) % u64
  let freeLf := free * lfNum / lfDen
  if count < freeLf then some m
  else m.Resize (FormatCapacity (m.dataSize + (count - freeLf)))

/-- The per-index body of the raw-pointer `EmplaceAll` overload. -/
def emplaceAllPtrLoop (ks : List K) (vs : List V) (dk : K) (dv : V) :
    List Nat → LinearCoreMap K V → Option (LinearCoreMap K V)
  | [], m => some m
  | idx :: rest, m =>
    match m.EmplaceNoGrow (ks.getD idx dk) (vs.getD idx dv) with
    | some m2 => emplaceAllPtrLoop ks vs dk dv rest m2
    | none => none

/-- Embeds the raw-pointer overload `LinearCoreMap::EmplaceAll(K* keys,
V* values, size_t count)`: null pointers are `none` lists; the guard
`if (!keys || !values || count == 0) return;` comes first, then
`EnsureCapacity(count)` and one `EmplaceNoGrow` per index. -/
def EmplaceAllPtr (m : LinearCoreMap K V) (keys? : Option (List K))
    (values? : Option (List V)) (count : Nat) : Option (LinearCoreMap K V) :=
  match keys?, values? with
  | some ks, some vs =>
    if count = 0 then some m
    else
      match m.EnsureCapacity count with
      | some m1 => emplaceAllPtrLoop ks vs m.defaultKey m.defaultValue
          (List.range count) m1
      | none => none
  | _, _ => some m

/-- Embeds `LinearHash::Rehash`: format the capacity, throw
(`Except.error ()`) when it is below the current count, otherwise `Resize`. -/
def Rehash (m : LinearCoreMap K V) (newCapacity : Nat) :
    Option (Except Unit (LinearCoreMap K V)) :=
  let nc := FormatCapacity newCapacity
  if nc < m.count then some (Except.error ())
  else (m.Resize nc).map Except.ok

/-- Embeds `LinearCoreMap::Clear`: reset the first `m_data_size` occupancy
flags and keys (the C++ fills keys with `0`, i.e. the value-initialised
default of the repository's key types), `m_count = 0`; storage kept. -/
def Clear (m : LinearCoreMap K V) : LinearCoreMap K V :=
  { m with
    used := fun i => if i < m.dataSize then false else m.used i
    keys := fun i => if i < m.dataSize then m.defaultKey else m.keys i
    count := 0 }

/-- Embeds `LinearCoreMap::Reserve`: discard the arrays, allocate fresh
value-initialised ones at the formatted capacity, reset the count. -/
def Reserve (m : LinearCoreMap K V) (capacity : Nat) : LinearCoreMap K V :=
  { m with
    keys := fun _ => m.defaultKey
    values := fun _ => m.defaultValue
    used := fun _ => false
    count := 0
    dataSize := FormatCapacity capacity }

/-- Embeds construction (`LinearCoreMap::Init`, which calls `Reserve` on the
requested capacity and binds the hash function). -/
def init (hashF : K → Nat) (dk : K) (dv : V) (capacity : Nat) :
    LinearCoreMap K V :=
  Reserve
    { hash := hashF, count := 0, dataSize := 0,
      keys := fun _ => dk, values := fun _ => dv, used := fun _ => false,
      defaultKey := dk, defaultValue := dv } capacity

/-- The first loop of `LinearCoreMap::Erase`: probe for the key, tracking the
offset `inc` from the start index; `some none` = not found (unoccupied slot
reached), `some (some inc)` = found `inc` steps from home. -/
def eraseFindLoop {K : Type} [DecidableEq K] (used : Nat → Bool)
    (keys : Nat → K) (key : K) (mask : Nat) :
    Nat → Nat → Nat → Option (Option Nat)
  | 0, _, _ => none
  | fuel + 1, i, inc =>
    if used i = false then some none
    else if keys i = key then some (some inc)
    else eraseFindLoop used keys key mask fuel ((i + 1) &&& mask) (inc + 1)

/-- The second loop of `LinearCoreMap::Erase`: starting at `start + 1`
(unmasked first index, masked steps), count the occupied slots whose
`GetSlot` start equals `start`; an unoccupied slot breaks the loop through
the `start_other += (0xFFFFFFFFFFFFFFFF - m_data_size) * (1 - used)`
`size_t` trick. -/
def eraseCountLoop (m : LinearCoreMap K V) (start : Nat) :
    Nat → Nat → Nat → Option Nat
  | 0, _, _ => none
  | fuel + 1, i, acc =>
    let b : Nat := if m.used i then 1 else 0
    let startOther := (m.GetSlot (m.keys i) m.dataSize).1
    let adj := (startOther + (u64 - 1 - m.dataSize) * (1 - b)) % u64
    if adj ≠ start then some acc
    else eraseCountLoop m start fuel ((i + 1) &&& (m.dataSize - 1)) (acc + 1)

/-- The shift loop of `LinearCoreMap::Erase`: `keysAbove` times, copy slot
`(i + 1) & mask` onto slot `i` in all three arrays and advance. -/
def eraseShiftLoop {K V : Type} (mask : Nat) (keys : Nat → K)
    (values : Nat → V) (used : Nat → Bool) :
    Nat → Nat → (Nat → K) × (Nat → V) × (Nat → Bool)
  | 0, _ => (keys, values, used)
  | n + 1, i =>
    let next := (i + 1) &&& mask
    eraseShiftLoop mask
      (Function.update keys i (keys next))
      (Function.update values i (values next))
      (Function.update used i (used next))
      n next

/-- Embeds `LinearCoreMap::Erase`: find the key (recording `inc`), set
`start += inc`, count `keys_above`, then either clear slot `start`
(`keys_above == 0`) or shift the counted run back one slot and clear the
vacated slot `(start + keys_above) & last_index`; decrement `m_count`. -/
def Erase (m : LinearCoreMap K V) (key : K) :
    Option (Bool × LinearCoreMap K V) :=
  let p := m.GetSlot key m.dataSize
  match eraseFindLoop m.used m.keys key p.2 m.dataSize p.1 0 with
  | none => none
  | some none => some (false, m)
  | some (some inc) =>
    let start := p.1 + inc
    match eraseCountLoop m start m.dataSize (start + 1) 0 with
    | none => none
    | some keysAbove =>
      if keysAbove = 0 then
        some (true,
          { m with
            used := Function.update m.used start false
            keys := Function.update m.keys start m.defaultKey
            values := Function.update m.values start m.defaultValue
            count := m.count - 1 })
      else
        let a := eraseShiftLoop p.2 m.keys m.values m.used keysAbove start
        let lastEntry := (start + keysAbove) &&& p.2
        some (true,
          { m with
            keys := Function.update a.1 lastEntry m.defaultKey
            values := Function.update a.2.1 lastEntry m.defaultValue
            used := Function.update a.2.2 lastEntry false
            count := m.count - 1 })

end LinearCoreMap

/-- Embeds the state of `LinearSet<K>` (no value array). -/
structure LinearSet (K : Type) where
  hash : K → Nat
  count : Nat
  dataSize : Nat
  keys : Nat → K
  used : Nat → Bool
  defaultKey : K

namespace LinearSet

variable {K : Type} [DecidableEq K]

/-- `this->GetSlot(key, data_size)` for the set. -/
def GetSlot (s : LinearSet K) (key : K) (dataSize : Nat) : Nat × Nat :=
  slotOf s.hash key dataSize

/-- The loop of `LinearSet::Emplace` and `LinearSet::EmplaceNewSize`: scan
for the first unoccupied slot; note there is no key-equality check. -/
def setEmplaceLoop (used : Nat → Bool) (mask : Nat) : Nat → Nat → Option Nat
  | 0, _ => none
  | fuel + 1, i =>
    if used i = false then some i
    else setEmplaceLoop used mask fuel ((i + 1) &&& mask)

/-- The re-insertion pass of `LinearSet::Resize`. -/
def setResizeLoop (s : LinearSet K) (newSize : Nat) :
    List Nat → (Nat → K) → (Nat → Bool) → Option ((Nat → K) × (Nat → Bool))
  | [], kn, un => some (kn, un)
  | i :: rest, kn, un =>
    if s.used i then
      match setEmplaceLoop un (newSize - 1) newSize
          (slotOf s.hash (s.keys i) newSize).1 with
      | some j =>
        setResizeLoop s newSize rest (Function.update kn j (s.keys i))
          (Function.update un j true)
      | none => none
    else setResizeLoop s newSize rest kn un

/-- Embeds `LinearSet::Resize`. -/
def Resize (s : LinearSet K) (newSize : Nat) : Option (LinearSet K) :=
  match setResizeLoop s newSize (List.range s.dataSize)
      (fun _ => s.defaultKey) (fun _ => false) with
  | some a => some { s with keys := a.1, used := a.2, dataSize := newSize }
  | none => none

/-- Embeds `LinearSet::Insert`: write the key, increment the count, double
the capacity when the load factor exceeds the threshold. -/
def Insert (s : LinearSet K) (key : K) (i : Nat) : Option (LinearSet K) :=
  let s2 : LinearSet K :=
    { s with used := Function.update s.used i true
             keys := Function.update s.keys i key
             count := s.count + 1 }
  if LinearCoreMap.growCheck s2.count s2.dataSize then
    s2.Resize (s2.dataSize * 2)
  else some s2

/-- Embeds `LinearSet::Emplace`: probe for the first unoccupied slot and
insert there.  Unlike the map engine's `Emplace`, the loop has no
`m_keys[i] == key` branch, so a key that is already present is inserted
again at the next free slot. -/
def Emplace (s : LinearSet K) (key : K) : Option (LinearSet K) :=
  match setEmplaceLoop s.used (s.GetSlot key s.dataSize).2 s.dataSize
      (s.GetSlot key s.dataSize).1 with
  | some i => s.Insert key i
  | none => none

/-- Embeds `LinearSet::TryEmplace`: the same loop with the key-equality
check; returns whether an insertion occurred. -/
def TryEmplace (s : LinearSet K) (key : K) : Option (Bool × LinearSet K) :=
  match probeLoop s.used s.keys key (s.GetSlot key s.dataSize).2 s.dataSize
      (s.GetSlot key s.dataSize).1 with
  | some (ProbeHit.empty i) => (s.Insert key i).map (fun s2 => (true, s2))
  | some (ProbeHit.found _) => some (false, s)
  | none => none

/-- Embeds `LinearSet::Contains`. -/
def Contains (s : LinearSet K) (key : K) : Option Bool :=
  match probeLoop s.used s.keys key (s.GetSlot key s.dataSize).2 s.dataSize
      (s.GetSlot key s.dataSize).1 with
  | some (ProbeHit.found _) => some true
  | some (ProbeHit.empty _) => some false
  | none => none

/-- Embeds `LinearSet::Size` (inherited from `LinearHash`). -/
def Size (s : LinearSet K) : Nat := s.count

/-- Embeds `LinearSet` construction (`Init` → `Reserve` + hash binding). -/
def init (hashF : K → Nat) (dk : K) (capacity : Nat) : LinearSet K :=
  { hash := hashF, count := 0, dataSize := FormatCapacity capacity,
    keys := fun _ => dk, used := fun _ => false, defaultKey := dk }

end LinearSet

/-- The identity hash bound by the integer specialisation
`LinearMap<T> : LinearCoreMap<size_t, T>` (`IntHash(k) = k`). -/
def IntHash : Nat → Nat := fun k => k

/-- Embeds `LinearMap<T>` construction: `LinearCoreMap<size_t,T>(capacity,
&IntHash)` with `size_t` defaults (zero). -/
def LinearMap.init (V : Type) (dv : V) (capacity : Nat) :
    LinearCoreMap Nat V :=
  LinearCoreMap.init IntHash 0 dv capacity

/-! ## Arithmetic facts about the capacity policy and the bit mask -/

/-- Masking with `2 ^ e - 1` is reduction modulo `2 ^ e`: the foundation of
the "all modulo-capacity arithmetic is a bitwise AND" design. -/
theorem and_mask_eq_mod (x e : Nat) : x &&& (2 ^ e - 1) = x % 2 ^ e := by
  refine Nat.eq_of_testBit_eq fun i => ?_
  rw [Nat.testBit_land, Nat.testBit_two_pow_sub_one, Nat.testBit_mod_two_pow,
    Bool.and_comm]

theorem bitWidthAux_lt (fuel : Nat) : ∀ n, n ≤ fuel → n < 2 ^ bitWidthAux fuel n := by
  induction fuel with
  | zero => intro n hn; interval_cases n; simp [bitWidthAux]
  | succ fuel ih =>
    intro n hn
    by_cases h0 : n = 0
    · simp [bitWidthAux, h0]
    · have hdiv : n / 2 ≤ fuel := by omega
      have := ih (n / 2) hdiv
      have hpow : 2 ^ bitWidthAux (fuel + 1) n = 2 * 2 ^ bitWidthAux fuel (n / 2) := by
        simp [bitWidthAux, h0, Nat.pow_succ, Nat.mul_comm]
      omega

theorem lt_two_pow_bitWidth (n : Nat) : n < 2 ^ bitWidth n :=
  bitWidthAux_lt n n le_rfl

theorem FormatCapacity_eq_pow (n : Nat) :
    FormatCapacity n = 2 ^ bitWidth (max n 8 - 1) := by
  simp [FormatCapacity, Nat.shiftLeft_eq]

theorem le_FormatCapacity (n : Nat) : n ≤ FormatCapacity n := by
  have h := lt_two_pow_bitWidth (max n 8 - 1)
  have : max n 8 - 1 < FormatCapacity n := by rw [FormatCapacity_eq_pow]; exact h
  have h8 : 8 ≤ max n 8 := le_max_right n 8
  have hn : n ≤ max n 8 := le_max_left n 8
  omega

theorem FormatCapacity_ge_8 (n : Nat) : 8 ≤ FormatCapacity n := by
  have h := lt_two_pow_bitWidth (max n 8 - 1)
  have h8 : 8 ≤ max n 8 := le_max_right n 8
  rw [FormatCapacity_eq_pow]
  omega

/-- A power of two at least 8 stays below `2 ^ 64`-scale arithmetic only in
actual runs, but every mask computed from it stays inside the table. -/
theorem mask_lt_of_pow {ds e : Nat} (hds : ds = 2 ^ e) (x : Nat) :
    x &&& (ds - 1) = x % ds := by
  subst hds; exact and_mask_eq_mod x e

theorem mod_lt_ds {ds : Nat} (hds : 0 < ds) (x : Nat) : x % ds < ds :=
  Nat.mod_lt _ hds

/-- Position arithmetic: successive masked steps from `p` visit
`(p + t) % ds`. -/
theorem mod_add_shift (ds p s : Nat) : ((p + 1) % ds + s) % ds = (p + 1 + s) % ds :=
  Nat.mod_add_mod (p + 1) ds s

/-! ## Characterisation of the shared probe loop -/

section ProbeLemmas

variable {K : Type} [DecidableEq K]

/-- Soundness: when the probe loop stops, it stops at the first slot (in
probe order) that is unoccupied or holds the key, and every slot strictly
before it on the probe path is occupied by a different key. -/
theorem probeLoop_spec_some (used : Nat → Bool) (keys : Nat → K) (key : K)
    {ds e : Nat} (hds : ds = 2 ^ e) (hpos : 0 < ds) :
    ∀ (fuel p : Nat), p < ds → ∀ r,
      probeLoop used keys key (ds - 1) fuel p = some r →
      ∃ t, t < fuel ∧
        (∀ s, s < t → used ((p + s) % ds) = true ∧ keys ((p + s) % ds) ≠ key) ∧
        ((r = ProbeHit.empty ((p + t) % ds) ∧ used ((p + t) % ds) = false) ∨
         (r = ProbeHit.found ((p + t) % ds) ∧ used ((p + t) % ds) = true ∧
            keys ((p + t) % ds) = key)) := by
  intro fuel
  induction fuel with
  | zero => intro p hp r hr; simp [probeLoop] at hr
  | succ fuel ih =>
    intro p hp r hr
    rw [probeLoop] at hr
    by_cases hu : used p = false
    · rw [if_pos hu] at hr
      refine ⟨0, Nat.succ_pos _, by omega, Or.inl ?_⟩
      have hp0 : (p + 0) % ds = p := by simp [Nat.mod_eq_of_lt hp]
      rw [hp0]
      exact ⟨(Option.some.injEq _ _).mp hr.symm ▸ rfl, hu⟩
    · rw [if_neg hu] at hr
      have hu' : used p = true := by
        cases h : used p
        · exact absurd h hu
        · rfl
      by_cases hk : keys p = key
      · rw [if_pos hk] at hr
        refine ⟨0, Nat.succ_pos _, by omega, Or.inr ?_⟩
        have hp0 : (p + 0) % ds = p := by simp [Nat.mod_eq_of_lt hp]
        rw [hp0]
        exact ⟨(Option.some.injEq _ _).mp hr.symm ▸ rfl, hu', hk⟩
      · rw [if_neg hk] at hr
        rw [mask_lt_of_pow hds] at hr
        obtain ⟨t, ht, hprev, hcase⟩ :=
          ih ((p + 1) % ds) (mod_lt_ds hpos _) r hr
        refine ⟨t + 1, by omega, ?_, ?_⟩
        · intro s hs
          cases s with
          | zero =>
            have hp0 : (p + 0) % ds = p := by simp [Nat.mod_eq_of_lt hp]
            rw [hp0]; exact ⟨hu', hk⟩
          | succ s =>
            have := hprev s (by omega)
            rwa [mod_add_shift, Nat.add_right_comm p 1 s] at this
        · rw [mod_add_shift, Nat.add_right_comm p 1 t] at hcase
          exact hcase

/-- When the probe loop exhausts its fuel, every slot on the path so far is
occupied by a key different from the probed one. -/
theorem probeLoop_spec_none (used : Nat → Bool) (keys : Nat → K) (key : K)
    {ds e : Nat} (hds : ds = 2 ^ e) (hpos : 0 < ds) :
    ∀ (fuel p : Nat), p < ds →
      probeLoop used keys key (ds - 1) fuel p = none →
      ∀ t, t < fuel → used ((p + t) % ds) = true ∧ keys ((p + t) % ds) ≠ key := by
  intro fuel
  induction fuel with
  | zero => intro p hp hr t ht; omega
  | succ fuel ih =>
    intro p hp hr t ht
    rw [probeLoop] at hr
    by_cases hu : used p = false
    · rw [if_pos hu] at hr; exact absurd hr (by simp)
    · rw [if_neg hu] at hr
      have hu' : used p = true := by
        cases h : used p
        · exact absurd h hu
        · rfl
      by_cases hk : keys p = key
      · rw [if_pos hk] at hr; exact absurd hr (by simp)
      · rw [if_neg hk] at hr
        rw [mask_lt_of_pow hds] at hr
        cases t with
        | zero =>
          have hp0 : (p + 0) % ds = p := by simp [Nat.mod_eq_of_lt hp]
          rw [hp0]; exact ⟨hu', hk⟩
        | succ t =>
          have := ih ((p + 1) % ds) (mod_lt_ds hpos _) hr t (by omega)
          rwa [mod_add_shift, Nat.add_right_comm p 1 t] at this

/-- Progress: with fuel `ds` and some unoccupied slot in the table, the probe
loop stops. -/
theorem probeLoop_some_of_free (used : Nat → Bool) (keys : Nat → K) (key : K)
    {ds e : Nat} (hds : ds = 2 ^ e) (hpos : 0 < ds) (p : Nat) (hp : p < ds)
    (hfree : ∃ u, u < ds ∧ used u = false) :
    ∃ r, probeLoop used keys key (ds - 1) ds p = some r := by
  obtain ⟨u, hu, hufree⟩ := hfree
  cases hr : probeLoop used keys key (ds - 1) ds p with
  | some r => exact ⟨r, rfl⟩
  | none =>
    exfalso
    have hall := probeLoop_spec_none used keys key hds hpos ds p hp hr
    have ht : (u + ds - p) % ds < ds := mod_lt_ds hpos _
    have hx := (hall ((u + ds - p) % ds) ht).1
    have hkey : (p + (u + ds - p) % ds) % ds = u := by
      have h1 : (p + (u + ds - p) % ds) % ds = (p + (u + ds - p)) % ds :=
        Nat.add_mod_mod p (u + ds - p) ds
      have h2 : p + (u + ds - p) = u + ds := by omega
      rw [h1, h2, Nat.add_mod_right, Nat.mod_eq_of_lt hu]
    rw [hkey, hufree] at hx
    exact absurd hx (by simp)

end ProbeLemmas

/-! ## Representation invariant of the table -/

namespace LinearCoreMap

variable {K V : Type} [DecidableEq K]

/-- The key/value pair `(k, v)` is stored in the table. -/
def mem (m : LinearCoreMap K V) (k : K) (v : V) : Prop :=
  ∃ i, i < m.dataSize ∧ m.used i = true ∧ m.keys i = k ∧ m.values i = v

/-- The key `k` occupies some slot of the table. -/
def hasKey (m : LinearCoreMap K V) (k : K) : Prop :=
  ∃ i, i < m.dataSize ∧ m.used i = true ∧ m.keys i = k

/-- Number of occupied slots among the first `n`. -/
def usedCard (un : Nat → Bool) (n : Nat) : Nat :=
  ((Finset.range n).filter (fun i => un i = true)).card

/-- Structural well-formedness: power-of-two capacity of at least 8, junk
region unoccupied, pairwise-distinct stored keys, the probe-chain invariant
(every stored entry is reachable from its home slot through occupied slots),
and a count that matches the occupancy array. -/
structure WfCore (m : LinearCoreMap K V) : Prop where
  pow : ∃ e, m.dataSize = 2 ^ e
  big : 8 ≤ m.dataSize
  usedBound : ∀ i, m.dataSize ≤ i → m.used i = false
  distinct : ∀ i, i < m.dataSize → ∀ j, j < m.dataSize → m.used i = true →
    m.used j = true → m.keys i = m.keys j → i = j
  chain : ∀ i, i < m.dataSize → m.used i = true →
    ∀ t, t ≤ (i + m.dataSize - m.home (m.keys i)) % m.dataSize →
      m.used ((m.home (m.keys i) + t) % m.dataSize) = true
  cardCount : m.count = usedCard m.used m.dataSize

/-- Full well-formedness: in addition, the table is not full (guaranteed by
the load-factor policy on every reachable state). -/
def Wf (m : LinearCoreMap K V) : Prop := WfCore m ∧ m.count < m.dataSize

theorem WfCore.pos {m : LinearCoreMap K V} (hw : WfCore m) : 0 < m.dataSize := by
  have := hw.big; omega

theorem home_lt {m : LinearCoreMap K V} (hpow : ∃ e, m.dataSize = 2 ^ e)
    (hpos : 0 < m.dataSize) (k : K) : m.home k < m.dataSize := by
  obtain ⟨e, hds⟩ := hpow
  have : m.home k = HashImpl (m.hash k) m.dataSize % m.dataSize := by
    show (slotOf m.hash k m.dataSize).1 = _
    simp only [slotOf]
    exact mask_lt_of_pow hds _
  rw [this]
  exact mod_lt_ds hpos _

theorem getSlot_snd (m : LinearCoreMap K V) (k : K) (ds : Nat) :
    (m.GetSlot k ds).2 = ds - 1 := rfl

/-- The probe distance from the home slot lands back on the stored slot. -/
theorem home_add_dist {h i ds : Nat} (hh : h < ds) (hi : i < ds) :
    (h + (i + ds - h) % ds) % ds = i := by
  have h1 : (h + (i + ds - h) % ds) % ds = (h + (i + ds - h)) % ds :=
    Nat.add_mod_mod h (i + ds - h) ds
  have h2 : h + (i + ds - h) = i + ds := by omega
  rw [h1, h2, Nat.add_mod_right, Nat.mod_eq_of_lt hi]

/-- A non-full well-formed table has an unoccupied slot. -/
theorem exists_free {m : LinearCoreMap K V} (hw : WfCore m)
    (hlt : m.count < m.dataSize) :
    ∃ u, u < m.dataSize ∧ m.used u = false := by
  by_contra h
  push_neg at h
  have hall : ∀ u ∈ Finset.range m.dataSize, m.used u = true := by
    intro u hu
    have := h u (Finset.mem_range.mp hu)
    cases hx : m.used u
    · exact absurd hx this
    · rfl
  have : usedCard m.used m.dataSize = m.dataSize := by
    rw [usedCard, Finset.filter_true_of_mem hall, Finset.card_range]
  rw [hw.cardCount, this] at hlt
  omega

/-- Every slot of the table is visited by the probe sequence within
`dataSize` steps. -/
theorem slot_as_probe_pos {ds : Nat} (hpos : 0 < ds) (p j : Nat) (hp : p < ds)
    (hj : j < ds) : (p + (j + ds - p) % ds) % ds = j :=
  home_add_dist hp hj

/-- A hit on a well-formed table: `Contains` answers `true` and `Get`
returns the stored value. -/
theorem lookup_of_mem {m : LinearCoreMap K V} (hw : WfCore m) {k : K} {v : V}
    (hmem : m.mem k v) : m.Contains k = some true ∧ m.Get k = some v := by
  obtain ⟨e, hds⟩ := hw.pow
  have hpos := hw.pos
  obtain ⟨j, hj, hju, hjk, hjv⟩ := hmem
  have hp : m.home k < m.dataSize := home_lt hw.pow hw.pos k
  -- the probe loop cannot run forever: slot j holds the key
  have hprobe : ∀ res, m.probe k = res → ∃ i, res = some (ProbeHit.found i) ∧
      i < m.dataSize ∧ m.keys i = k ∧ m.used i = true := by
    intro res hres
    cases res with
    | none =>
      exfalso
      have hnone := probeLoop_spec_none m.used m.keys k hds hpos m.dataSize
        (m.home k) hp hres
      have hd : (j + m.dataSize - m.home k) % m.dataSize < m.dataSize :=
        mod_lt_ds hpos _
      have := (hnone _ hd).2
      rw [slot_as_probe_pos hpos _ j hp hj] at this
      exact this hjk
    | some r =>
      obtain ⟨t, ht, hprev, hcase⟩ := probeLoop_spec_some m.used m.keys k hds
        hpos m.dataSize (m.home k) hp r hres
      rcases hcase with ⟨hre, hfalse⟩ | ⟨hrf, hu, hkk⟩
      · exfalso
        -- an empty slot cannot appear before slot j on the probe path
        set d := (j + m.dataSize - m.home k) % m.dataSize with hdref
        have hchain := hw.chain j hj hju
        rw [hjk] at hchain
        rcases Nat.lt_or_ge d t with hlt | hge
        · have := (hprev d hlt).2
          rw [slot_as_probe_pos hpos _ j hp hj] at this
          exact this hjk
        · have := hchain t hge
          rw [this] at hfalse
          exact absurd hfalse (by simp)
      · refine ⟨(m.home k + t) % m.dataSize, ?_, mod_lt_ds hpos _, hkk, hu⟩
        rw [hrf]
  obtain ⟨i, hres, hi, hik, hiu⟩ := hprobe (m.probe k) rfl
  have hij : i = j := hw.distinct i hi j hj hiu hju (by rw [hik, hjk])
  constructor
  · rw [Contains, hres]
  · rw [Get, hres]
    show some (m.values i) = some v
    rw [hij, hjv]

/-- A miss on a table with a free slot: `Contains` answers `false` and `Get`
returns the shared default sentinel. -/
theorem lookup_of_not_hasKey {m : LinearCoreMap K V}
    (hpow : ∃ e, m.dataSize = 2 ^ e) (hpos : 0 < m.dataSize)
    (hfree : ∃ u, u < m.dataSize ∧ m.used u = false) {k : K}
    (hno : ¬ m.hasKey k) :
    m.Contains k = some false ∧ m.Get k = some m.defaultValue := by
  obtain ⟨e, hds⟩ := hpow
  have hp : m.home k < m.dataSize := home_lt ⟨e, hds⟩ hpos k
  obtain ⟨r, hr⟩ := probeLoop_some_of_free m.used m.keys k hds hpos
    (m.home k) hp hfree
  have hr' : m.probe k = some r := hr
  obtain ⟨t, ht, hprev, hcase⟩ := probeLoop_spec_some m.used m.keys k hds
    hpos m.dataSize (m.home k) hp r hr
  rcases hcase with ⟨hre, hfalse⟩ | ⟨hrf, hu, hkk⟩
  · constructor
    · rw [Contains, hr', hre]
    · rw [Get, hr', hre]
  · exact absurd ⟨_, mod_lt_ds hpos _, hu, hkk⟩ hno

end LinearCoreMap

/-! ## Generic facts about inserting at the first empty probe slot -/

/-- Home slot of `key` for hash function `hashF` at capacity `ns`
(the first component of `GetSlot`). -/
def homeOf {K : Type} (hashF : K → Nat) (key : K) (ns : Nat) : Nat :=
  (slotOf hashF key ns).1

theorem homeOf_lt {K : Type} (hashF : K → Nat) (key : K) {ns e : Nat}
    (hns : ns = 2 ^ e) (hpos : 0 < ns) : homeOf hashF key ns < ns := by
  have h : homeOf hashF key ns = HashImpl (hashF key) ns % ns := by
    simp only [homeOf, slotOf]
    exact mask_lt_of_pow hns _
  rw [h]
  exact mod_lt_ds hpos _

/-- Pairwise-distinct keys among the occupied slots of an array pair. -/
def distinctA {K : Type} (kn : Nat → K) (un : Nat → Bool) (ns : Nat) : Prop :=
  ∀ i, i < ns → ∀ j, j < ns → un i = true → un j = true → kn i = kn j → i = j

/-- The probe-chain invariant for an array pair at capacity `ns`. -/
def chainA {K : Type} (hashF : K → Nat) (kn : Nat → K) (un : Nat → Bool)
    (ns : Nat) : Prop :=
  ∀ i, i < ns → un i = true →
    ∀ t, t ≤ (i + ns - homeOf hashF (kn i) ns) % ns →
      un ((homeOf hashF (kn i) ns + t) % ns) = true

/-- The pair `(k, v)` is stored in an array triple. -/
def memArr {K V : Type} (kn : Nat → K) (vn : Nat → V) (un : Nat → Bool)
    (ns : Nat) (k : K) (v : V) : Prop :=
  ∃ i, i < ns ∧ un i = true ∧ kn i = k ∧ vn i = v

/-- The probe distance of the slot reached after `t` steps from home is `t`. -/
theorem dist_of_probe_pos {h t ns : Nat} (hh : h < ns) (ht : t < ns) :
    ((h + t) % ns + ns - h) % ns = t := by
  by_cases hlt : h + t < ns
  · rw [Nat.mod_eq_of_lt hlt]
    have : h + t + ns - h = t + ns := by omega
    rw [this, Nat.add_mod_right, Nat.mod_eq_of_lt ht]
  · have h1 : (h + t) % ns = h + t - ns := by
      rw [Nat.mod_eq_sub_mod (by omega), Nat.mod_eq_of_lt (by omega)]
    rw [h1]
    have : h + t - ns + ns - h = t := by omega
    rw [this, Nat.mod_eq_of_lt ht]

theorem exists_freeA {un : Nat → Bool} {ns : Nat}
    (h : LinearCoreMap.usedCard un ns < ns) : ∃ u, u < ns ∧ un u = false := by
  by_contra hcon
  push_neg at hcon
  have hall : ∀ u ∈ Finset.range ns, un u = true := by
    intro u hu
    have := hcon u (Finset.mem_range.mp hu)
    cases hx : un u
    · exact absurd hx this
    · rfl
  have : LinearCoreMap.usedCard un ns = ns := by
    rw [LinearCoreMap.usedCard, Finset.filter_true_of_mem hall, Finset.card_range]
  omega

theorem usedCard_update_true {un : Nat → Bool} {ns i : Nat} (hi : i < ns)
    (hfree : un i = false) :
    LinearCoreMap.usedCard (Function.update un i true) ns =
      LinearCoreMap.usedCard un ns + 1 := by
  have hset : (Finset.range ns).filter
      (fun j => Function.update un i true j = true) =
      insert i ((Finset.range ns).filter (fun j => un j = true)) := by
    ext j
    by_cases hji : j = i
    · subst hji
      simp [Finset.mem_filter, Finset.mem_range, hi]
    · simp [Finset.mem_filter, Finset.mem_insert, hji,
        Function.update_noteq hji]
  have hnotmem : i ∉ (Finset.range ns).filter (fun j => un j = true) := by
    simp [Finset.mem_filter, hfree]
  rw [LinearCoreMap.usedCard, hset, Finset.card_insert_of_not_mem hnotmem,
    LinearCoreMap.usedCard]

theorem memArr_update {K V : Type} (kn : Nat → K) (vn : Nat → V)
    (un : Nat → Bool) (ns i : Nat) (hi : i < ns) (hfree : un i = false)
    (key : K) (value : V) (k2 : K) (v2 : V) :
    memArr (Function.update kn i key) (Function.update vn i value)
      (Function.update un i true) ns k2 v2 ↔
    (k2 = key ∧ v2 = value) ∨ memArr kn vn un ns k2 v2 := by
  constructor
  · rintro ⟨j, hj, hju, hjk, hjv⟩
    by_cases hji : j = i
    · subst hji
      rw [Function.update_same] at hjk hjv
      exact Or.inl ⟨hjk.symm, hjv.symm⟩
    · rw [Function.update_noteq hji] at hju hjk hjv
      exact Or.inr ⟨j, hj, hju, hjk, hjv⟩
  · rintro (⟨hk, hv⟩ | ⟨j, hj, hju, hjk, hjv⟩)
    · exact ⟨i, hi, by simp, by simp [hk.symm], by simp [hv.symm]⟩
    · have hji : j ≠ i := by
        intro h
        rw [h, hfree] at hju
        exact absurd hju (by simp)
      exact ⟨j, hj, by rw [Function.update_noteq hji]; exact hju,
        by rw [Function.update_noteq hji]; exact hjk,
        by rw [Function.update_noteq hji]; exact hjv⟩

/-- Inserting a key at the first empty slot of its probe sequence preserves
the junk bound, distinctness, and the probe-chain invariant; moreover the
key was nowhere in the table. -/
theorem insert_at_probe_empty {K : Type} [DecidableEq K] (hashF : K → Nat)
    {ns e : Nat} (hns : ns = 2 ^ e) (hpos : 0 < ns)
    (un : Nat → Bool) (kn : Nat → K) (key : K) (t : Nat) (ht : t < ns)
    (hub : ∀ j, ns ≤ j → un j = false)
    (hdist : distinctA kn un ns)
    (hchain : chainA hashF kn un ns)
    (hprev : ∀ s, s < t → un ((homeOf hashF key ns + s) % ns) = true ∧
      kn ((homeOf hashF key ns + s) % ns) ≠ key)
    (hempty : un ((homeOf hashF key ns + t) % ns) = false) :
    (∀ j, j < ns → un j = true → kn j ≠ key) ∧
    (∀ j, ns ≤ j →
      Function.update un ((homeOf hashF key ns + t) % ns) true j = false) ∧
    distinctA (Function.update kn ((homeOf hashF key ns + t) % ns) key)
      (Function.update un ((homeOf hashF key ns + t) % ns) true) ns ∧
    chainA hashF (Function.update kn ((homeOf hashF key ns + t) % ns) key)
      (Function.update un ((homeOf hashF key ns + t) % ns) true) ns := by
  have hh : homeOf hashF key ns < ns := homeOf_lt hashF key hns hpos
  set h := homeOf hashF key ns with hhdef
  set i := (h + t) % ns with hidef
  have hi : i < ns := mod_lt_ds hpos _
  have hfresh : ∀ j, j < ns → un j = true → kn j ≠ key := by
    intro j hj hju hkj
    have hchainj := hchain j hj hju
    rw [hkj] at hchainj
    set d := (j + ns - h) % ns with hddef
    have hd : d < ns := mod_lt_ds hpos _
    have hposd : (h + d) % ns = j := LinearCoreMap.home_add_dist hh hj
    rcases Nat.lt_or_ge d t with hlt | hge
    · have := (hprev d hlt).2
      rw [hposd] at this
      exact this hkj
    · have := hchainj t hge
      rw [← hidef] at this
      rw [this] at hempty
      exact absurd hempty (by simp)
  refine ⟨hfresh, ?_, ?_, ?_⟩
  · intro j hj
    have : j ≠ i := by omega
    rw [Function.update_noteq this]
    exact hub j hj
  · intro i1 hi1 j1 hj1 hu1 hu2 hkk
    by_cases h1 : i1 = i <;> by_cases h2 : j1 = i
    · rw [h1, h2]
    · exfalso
      rw [h1, Function.update_same] at hkk
      rw [Function.update_noteq h2] at hkk hu2
      exact hfresh j1 hj1 hu2 hkk.symm
    · exfalso
      rw [h2, Function.update_same] at hkk
      rw [Function.update_noteq h1] at hkk hu1
      exact hfresh i1 hi1 hu1 hkk
    · rw [Function.update_noteq h1] at hkk hu1
      rw [Function.update_noteq h2] at hkk hu2
      exact hdist i1 hi1 j1 hj1 hu1 hu2 hkk
  · intro j1 hj1 hu1 t1 ht1
    by_cases hj1i : j1 = i
    · subst hj1i
      rw [Function.update_same] at ht1 ⊢
      rw [dist_of_probe_pos hh ht] at ht1
      rcases Nat.lt_or_ge t1 t with hlt | hge
      · by_cases hp : (h + t1) % ns = i
        · rw [hp, Function.update_same]
        · rw [Function.update_noteq hp]
          exact (hprev t1 hlt).1
      · have : t1 = t := by omega
        rw [this, ← hidef, Function.update_same]
    · rw [Function.update_noteq hj1i] at hu1 ⊢
      have hcj := hchain j1 hj1 hu1
      rw [Function.update_noteq hj1i] at ht1
      have := hcj t1 ht1
      by_cases hp : (homeOf hashF (kn j1) ns + t1) % ns = i
      · rw [hp, Function.update_same]
      · rw [Function.update_noteq hp]
        exact this

/-! ## The resize pass rebuilds a well-formed table with the same contents -/

namespace LinearCoreMap

variable {K V : Type} [DecidableEq K]

/-- Number of occupied old slots among a list of indices. -/
def usedLen (m : LinearCoreMap K V) (l : List Nat) : Nat :=
  (l.filter (fun j => m.used j)).length

theorem usedLen_nil (m : LinearCoreMap K V) : m.usedLen [] = 0 := rfl

theorem usedLen_cons (m : LinearCoreMap K V) (j : Nat) (l : List Nat) :
    m.usedLen (j :: l) =
      (if m.used j then 1 else 0) + m.usedLen l := by
  by_cases hj : m.used j
  · simp only [usedLen, List.filter_cons, hj, if_pos, List.length_cons]
    omega
  · simp [usedLen, List.filter_cons, hj]

theorem usedLen_range_eq (m : LinearCoreMap K V) :
    ∀ n, m.usedLen (List.range n) = usedCard m.used n := by
  intro n
  induction n with
  | zero => simp [usedLen, usedCard]
  | succ n ih =>
    rw [List.range_succ]
    have h1 : m.usedLen (List.range n ++ [n]) =
        m.usedLen (List.range n) + m.usedLen [n] := by
      simp [usedLen, List.filter_append]
    have h2 : usedCard m.used (n + 1) =
        usedCard m.used n + (if m.used n then 1 else 0) := by
      rw [usedCard, usedCard, Finset.range_succ, Finset.filter_insert]
      by_cases hn : m.used n
      · rw [if_pos (by simp [hn]),
          Finset.card_insert_of_not_mem (by simp), if_pos hn]
      · rw [if_neg (by simp [hn]), if_neg hn, Nat.add_zero]
    rw [h1, h2, ih, usedLen_cons m n [], usedLen_nil, Nat.add_zero]

/-- `EmplaceNewSize` on new arrays that do not contain the key, with room to
spare: it inserts at the first empty probe slot and preserves all
invariants. -/
theorem emplaceNewSize_spec (m : LinearCoreMap K V) {ns e : Nat}
    (hns : ns = 2 ^ e) (hpos : 0 < ns) (a : NewArrays K V) (key : K)
    (value : V)
    (hub : ∀ j, ns ≤ j → a.un j = false)
    (hdist : distinctA a.kn a.un ns)
    (hchain : chainA m.hash a.kn a.un ns)
    (hcard : usedCard a.un ns < ns)
    (hfreshKey : ∀ i, i < ns → a.un i = true → a.kn i ≠ key) :
    ∃ i, i < ns ∧ a.un i = false ∧
      m.EmplaceNewSize a key value ns =
        some { kn := Function.update a.kn i key,
               vn := Function.update a.vn i value,
               un := Function.update a.un i true } ∧
      (∀ j, ns ≤ j → Function.update a.un i true j = false) ∧
      distinctA (Function.update a.kn i key)
        (Function.update a.un i true) ns ∧
      chainA m.hash (Function.update a.kn i key)
        (Function.update a.un i true) ns := by
  have hh : homeOf m.hash key ns < ns := homeOf_lt m.hash key hns hpos
  obtain ⟨r, hr⟩ := probeLoop_some_of_free a.un a.kn key hns hpos
    (homeOf m.hash key ns) hh (exists_freeA hcard)
  obtain ⟨t, ht, hprev, hcase⟩ := probeLoop_spec_some a.un a.kn key hns hpos
    ns (homeOf m.hash key ns) hh r hr
  rcases hcase with ⟨hre, hfalse⟩ | ⟨hrf, hu, hkk⟩
  · -- empty slot found
    set i := (homeOf m.hash key ns + t) % ns with hidef
    have hi : i < ns := mod_lt_ds hpos _
    have hprev2 : ∀ s, s < t →
        a.un ((homeOf m.hash key ns + s) % ns) = true ∧
        a.kn ((homeOf m.hash key ns + s) % ns) ≠ key := hprev
    obtain ⟨hfresh, hub2, hdist2, hchain2⟩ := insert_at_probe_empty m.hash hns
      hpos a.un a.kn key t ht hub hdist hchain hprev2 hfalse
    refine ⟨i, hi, hfalse, ?_, hub2, hdist2, hchain2⟩
    rw [EmplaceNewSize]
    have hps : (slotOf m.hash key ns).1 = homeOf m.hash key ns := rfl
    have hps2 : (slotOf m.hash key ns).2 = ns - 1 := rfl
    rw [hps, hps2, hr, hre]
  · -- a key match is impossible: the key is fresh
    exfalso
    exact hfreshKey _ (mod_lt_ds hpos _) hu hkk

/-- Main induction for `Resize`: walking a duplicate-free list of in-range
old slots inserts exactly the occupied ones, preserving the invariants and
accumulating their key/value pairs. -/
theorem resizeLoop_spec (m : LinearCoreMap K V) {ns e : Nat}
    (hns : ns = 2 ^ e) (hpos : 0 < ns)
    (hmdist : distinctA m.keys m.used m.dataSize) :
    ∀ l : List Nat, (∀ j ∈ l, j < m.dataSize) → l.Nodup →
    ∀ a : NewArrays K V,
    (∀ j, ns ≤ j → a.un j = false) →
    distinctA a.kn a.un ns →
    chainA m.hash a.kn a.un ns →
    usedCard a.un ns + m.usedLen l ≤ ns →
    (∀ i, i < ns → a.un i = true → ∀ j ∈ l, m.used j = true →
      a.kn i ≠ m.keys j) →
    ∃ a2, resizeLoop m ns l a = some a2 ∧
      (∀ j, ns ≤ j → a2.un j = false) ∧
      distinctA a2.kn a2.un ns ∧
      chainA m.hash a2.kn a2.un ns ∧
      usedCard a2.un ns = usedCard a.un ns + m.usedLen l ∧
      (∀ k v, memArr a2.kn a2.vn a2.un ns k v ↔
        (memArr a.kn a.vn a.un ns k v ∨
         ∃ j, j ∈ l ∧ m.used j = true ∧ m.keys j = k ∧ m.values j = v)) := by
  intro l
  induction l with
  | nil =>
    intro _ _ a hub hdist hchain hcard hfresh
    refine ⟨a, rfl, hub, hdist, hchain, by simp [usedLen], ?_⟩
    intro k v
    simp
  | cons j l ih =>
    intro hl hnodup a hub hdist hchain hcard hfresh
    have hjds : j < m.dataSize := hl j (by simp)
    have hltail : ∀ j2 ∈ l, j2 < m.dataSize := fun j2 hj2 => hl j2 (by simp [hj2])
    have hnodup2 : l.Nodup := (List.nodup_cons.mp hnodup).2
    have hjnotin : j ∉ l := (List.nodup_cons.mp hnodup).1
    by_cases hj : m.used j
    · -- occupied: insert this entry then recurse
      have hcard1 : usedCard a.un ns < ns := by
        rw [usedLen_cons, if_pos hj] at hcard
        omega
      have hfresh1 : ∀ i, i < ns → a.un i = true → a.kn i ≠ m.keys j :=
        fun i hi hu => hfresh i hi hu j (by simp) hj
      obtain ⟨i, hi, hifree, hemp, hub2, hdist2, hchain2⟩ :=
        emplaceNewSize_spec m hns hpos a (m.keys j) (m.values j) hub hdist
          hchain hcard1 hfresh1
      set a2 : NewArrays K V :=
        { kn := Function.update a.kn i (m.keys j),
          vn := Function.update a.vn i (m.values j),
          un := Function.update a.un i true } with ha2
      have hcard2 : usedCard a2.un ns = usedCard a.un ns + 1 :=
        usedCard_update_true hi hifree
      have hfresh2 : ∀ i2, i2 < ns → a2.un i2 = true → ∀ j2 ∈ l,
          m.used j2 = true → a2.kn i2 ≠ m.keys j2 := by
        intro i2 hi2 hu2 j2 hj2 hj2u
        by_cases hii : i2 = i
        · subst hii
          show Function.update a.kn i2 (m.keys j) i2 ≠ m.keys j2
          rw [Function.update_same]
          intro hkk
          have : j = j2 := hmdist j hjds j2 (hltail j2 hj2) hj hj2u hkk
          rw [this] at hjnotin
          exact hjnotin hj2
        · show Function.update a.kn i (m.keys j) i2 ≠ m.keys j2
          rw [Function.update_noteq hii]
          have hu2' : a.un i2 = true := by
            have : Function.update a.un i true i2 = a.un i2 :=
              Function.update_noteq hii _ _
            rw [← this]
            exact hu2
          exact hfresh i2 hi2 hu2' j2 (by simp [hj2]) hj2u
      have hcardtail : usedCard a2.un ns + m.usedLen l ≤ ns := by
        rw [hcard2]
        rw [usedLen_cons, if_pos hj] at hcard
        omega
      obtain ⟨a3, hrl, hub3, hdist3, hchain3, hcard3, hmem3⟩ :=
        ih hltail hnodup2 a2 hub2 hdist2 hchain2 hcardtail hfresh2
      refine ⟨a3, ?_, hub3, hdist3, hchain3, ?_, ?_⟩
      · rw [resizeLoop, if_pos hj, hemp]
        exact hrl
      · rw [hcard3, hcard2, usedLen_cons, if_pos hj]
        omega
      · intro k v
        rw [hmem3 k v]
        have hmem2 : ∀ k2 v2, memArr a2.kn a2.vn a2.un ns k2 v2 ↔
            (k2 = m.keys j ∧ v2 = m.values j) ∨ memArr a.kn a.vn a.un ns k2 v2 :=
          fun k2 v2 => memArr_update a.kn a.vn a.un ns i hi hifree _ _ k2 v2
        rw [hmem2 k v]
        constructor
        · rintro ((⟨hk, hv⟩ | hold) | ⟨j2, hj2, hj2u, hj2k, hj2v⟩)
          · exact Or.inr ⟨j, by simp, hj, hk.symm, hv.symm⟩
          · exact Or.inl hold
          · exact Or.inr ⟨j2, by simp [hj2], hj2u, hj2k, hj2v⟩
        · rintro (hold | ⟨j2, hj2, hj2u, hj2k, hj2v⟩)
          · exact Or.inl (Or.inr hold)
          · rcases List.mem_cons.mp hj2 with hj2j | hj2l
            · subst hj2j
              exact Or.inl (Or.inl ⟨hj2k.symm, hj2v.symm⟩)
            · exact Or.inr ⟨j2, hj2l, hj2u, hj2k, hj2v⟩
    · -- unoccupied: skip
      have hcardtail : usedCard a.un ns + m.usedLen l ≤ ns := by
        rw [usedLen_cons, if_neg hj] at hcard
        omega
      have hfresh2 : ∀ i, i < ns → a.un i = true → ∀ j2 ∈ l,
          m.used j2 = true → a.kn i ≠ m.keys j2 :=
        fun i hi hu j2 hj2 hj2u => hfresh i hi hu j2 (by simp [hj2]) hj2u
      obtain ⟨a3, hrl, hub3, hdist3, hchain3, hcard3, hmem3⟩ :=
        ih hltail hnodup2 a hub hdist hchain hcardtail hfresh2
      refine ⟨a3, ?_, hub3, hdist3, hchain3, ?_, ?_⟩
      · rw [resizeLoop, if_neg hj, hrl]
      · rw [hcard3, usedLen_cons, if_neg hj]
        omega
      · intro k v
        rw [hmem3 k v]
        constructor
        · rintro (hold | ⟨j2, hj2, hj2u, hj2k, hj2v⟩)
          · exact Or.inl hold
          · exact Or.inr ⟨j2, by simp [hj2], hj2u, hj2k, hj2v⟩
        · rintro (hold | ⟨j2, hj2, hj2u, hj2k, hj2v⟩)
          · exact Or.inl hold
          · rcases List.mem_cons.mp hj2 with hj2j | hj2l
            · subst hj2j
              rw [hj2u] at hj
              exact absurd rfl hj
            · exact Or.inr ⟨j2, hj2l, hj2u, hj2k, hj2v⟩

/-- `Resize` of a structurally well-formed table to a power-of-two capacity
that can hold the current count: succeeds, keeps the count, and preserves
exactly the stored pairs. -/
theorem Resize_spec (m : LinearCoreMap K V) (hw : WfCore m) {ns e : Nat}
    (hns : ns = 2 ^ e) (hbig : 8 ≤ ns) (hcount : m.count ≤ ns) :
    ∃ m2, m.Resize ns = some m2 ∧ WfCore m2 ∧ m2.count = m.count ∧
      m2.dataSize = ns ∧ m2.hash = m.hash ∧
      m2.defaultKey = m.defaultKey ∧ m2.defaultValue = m.defaultValue ∧
      (∀ k v, m2.mem k v ↔ m.mem k v) := by
  have hpos : 0 < ns := by omega
  have hinit : usedCard (fun _ : Nat => false) ns = 0 := by
    simp [usedCard]
  have hcard0 : usedCard (fun _ : Nat => false) ns +
      m.usedLen (List.range m.dataSize) ≤ ns := by
    rw [hinit, usedLen_range_eq, ← hw.cardCount]
    omega
  obtain ⟨a2, hrl, hub2, hdist2, hchain2, hcard2, hmem2⟩ :=
    resizeLoop_spec m hns hpos hw.distinct (List.range m.dataSize)
      (fun j hj => List.mem_range.mp hj) (List.nodup_range m.dataSize)
      { kn := fun _ => m.defaultKey, vn := fun _ => m.defaultValue,
        un := fun _ => false }
      (fun _ _ => rfl)
      (by intro i hi j hj hu; simp at hu)
      (by intro i hi hu; simp at hu)
      hcard0
      (by intro i hi hu; simp at hu)
  set m2 : LinearCoreMap K V := { m with keys := a2.kn, values := a2.vn, used := a2.un, dataSize := ns } with hm2
  refine ⟨m2, ?_, ?_, rfl, rfl, rfl, rfl, rfl, ?_⟩
  · rw [Resize, hrl]
  · refine ⟨⟨e, hns⟩, hbig, hub2, hdist2, hchain2, ?_⟩
    show m.count = usedCard a2.un ns
    rw [hcard2, hinit, usedLen_range_eq, ← hw.cardCount]
    omega
  · intro k v
    show memArr a2.kn a2.vn a2.un ns k v ↔ m.mem k v
    rw [hmem2 k v]
    constructor
    · rintro (⟨i, hi, hu, _⟩ | ⟨j, hj, hju, hjk, hjv⟩)
      · simp at hu
      · exact ⟨j, List.mem_range.mp hj, hju, hjk, hjv⟩
    · rintro ⟨j, hj, hju, hjk, hjv⟩
      exact Or.inr ⟨j, List.mem_range.mpr hj, hju, hjk, hjv⟩

end LinearCoreMap

/-! ## Specifications of the single-entry insert paths and Rehash -/

theorem FormatCapacity_pow (n : Nat) : ∃ e, FormatCapacity n = 2 ^ e :=
  ⟨bitWidth (max n 8 - 1), FormatCapacity_eq_pow n⟩

namespace LinearCoreMap

variable {K V : Type} [DecidableEq K]

/-- The load-factor numerator is strictly below the denominator
(`0.7 < 1`). -/
theorem lfNum_lt_lfDen : lfNum < lfDen := by
  rw [lfNum, lfDen]
  norm_num

/-- Doubling headroom: `1/2 < 0.7`. -/
theorem lfDen_le_two_lfNum : lfDen ≤ 2 * lfNum := by
  rw [lfNum, lfDen]
  norm_num

/-- `Insert` at the empty slot produced by a probe of a well-formed table:
it succeeds, preserves well-formedness and the fill bound, adds exactly the
new pair, and leaves the load factor at or below the threshold. -/
theorem Insert_spec (m : LinearCoreMap K V) (hw : WfCore m)
    (hlt : m.count < m.dataSize) (k : K) (v : V) {i : Nat}
    (hr : m.probe k = some (ProbeHit.empty i)) :
    ∃ m2, m.Insert k v i = some m2 ∧ WfCore m2 ∧ m2.count < m2.dataSize ∧
      m2.hash = m.hash ∧ m2.defaultKey = m.defaultKey ∧
      m2.defaultValue = m.defaultValue ∧
      m2.count = m.count + 1 ∧ m2.count * lfDen ≤ lfNum * m2.dataSize ∧
      (∀ k2 v2, m2.mem k2 v2 ↔ ((k2 = k ∧ v2 = v) ∨ m.mem k2 v2)) ∧
      (m2.dataSize = m.dataSize ∨ m2.dataSize = m.dataSize * 2) := by
  obtain ⟨e, hds⟩ := hw.pow
  have hpos := hw.pos
  have hh : m.home k < m.dataSize := home_lt hw.pow hw.pos k
  obtain ⟨t, ht, hprev, hcase⟩ := probeLoop_spec_some m.used m.keys k hds
    hpos m.dataSize (m.home k) hh _ hr
  rcases hcase with ⟨hre, hempty⟩ | ⟨hrf, _, _⟩
  swap
  · exact absurd hrf (by simp)
  have hie : i = (m.home k + t) % m.dataSize := by
    have h5 := hre
    injection h5 with h5
  have hi : i < m.dataSize := by rw [hie]; exact mod_lt_ds hpos _
  have hiempty : m.used i = false := by rw [hie]; exact hempty
  obtain ⟨hfresh0, hub0, hdist0, hchain0⟩ := insert_at_probe_empty m.hash hds
    hpos m.used m.keys k t ht hw.usedBound hw.distinct hw.chain hprev hempty
  have hub2 : ∀ j, m.dataSize ≤ j → Function.update m.used i true j = false := by
    rw [hie]; exact hub0
  have hdist2 : distinctA (Function.update m.keys i k)
      (Function.update m.used i true) m.dataSize := by
    rw [hie]; exact hdist0
  have hchain2 : chainA m.hash (Function.update m.keys i k)
      (Function.update m.used i true) m.dataSize := by
    rw [hie]; exact hchain0
  have hw1 : WfCore (m.InsertNoGrow k v i) := by
    refine ⟨⟨e, hds⟩, hw.big, ?_, ?_, ?_, ?_⟩
    · intro j hj
      exact hub2 j hj
    · intro a ha b hb hua hub hk2
      exact hdist2 a ha b hb hua hub hk2
    · intro a ha hua t2 ht2
      exact hchain2 a ha hua t2 ht2
    · show m.count + 1 = usedCard (Function.update m.used i true) m.dataSize
      rw [usedCard_update_true hi hiempty, ← hw.cardCount]
  have hmem1 : ∀ k2 v2, (m.InsertNoGrow k v i).mem k2 v2 ↔
      ((k2 = k ∧ v2 = v) ∨ m.mem k2 v2) :=
    fun k2 v2 => memArr_update m.keys m.values m.used m.dataSize i hi hiempty
      k v k2 v2
  have hc1 : (m.InsertNoGrow k v i).count = m.count + 1 := rfl
  have hds1 : (m.InsertNoGrow k v i).dataSize = m.dataSize := rfl
  have hhash1 : (m.InsertNoGrow k v i).hash = m.hash := rfl
  have hdk1 : (m.InsertNoGrow k v i).defaultKey = m.defaultKey := rfl
  have hdv1 : (m.InsertNoGrow k v i).defaultValue = m.defaultValue := rfl
  obtain ⟨m1, hm1⟩ : ∃ m1, m.InsertNoGrow k v i = m1 := ⟨_, rfl⟩
  rw [hm1] at hw1 hmem1 hc1 hds1 hhash1 hdk1 hdv1
  have hins : m.Insert k v i =
      if growCheck m1.count m1.dataSize then m1.Resize (m1.dataSize * 2)
      else some m1 := by
    rw [← hm1]
    rfl
  by_cases hgc : growCheck m1.count m1.dataSize
  · -- the insertion tripped the threshold: double the capacity
    rw [if_pos hgc] at hins
    have hcnt : m1.count ≤ m1.dataSize * 2 := by omega
    have hpow2 : m1.dataSize * 2 = 2 ^ (e + 1) := by
      rw [hds1, hds, Nat.pow_succ]
    obtain ⟨m2, hrz, hw2, hc2, hds2, hhash2, hdk2, hdv2, hmem2⟩ :=
      Resize_spec m1 hw1 hpow2 (by have := hw.big; omega) hcnt
    refine ⟨m2, by rw [hins]; exact hrz, hw2, ?_,
      by rw [hhash2, hhash1], by rw [hdk2, hdk1], by rw [hdv2, hdv1],
      by omega, ?_, ?_, ?_⟩
    · omega
    · have h2 : m2.count * lfDen ≤ m.dataSize * lfDen :=
        Nat.mul_le_mul_right _ (by omega)
      have h3 : m.dataSize * lfDen ≤ lfNum * (m.dataSize * 2) := by
        calc m.dataSize * lfDen ≤ m.dataSize * (2 * lfNum) :=
              Nat.mul_le_mul_left _ lfDen_le_two_lfNum
          _ = lfNum * (m.dataSize * 2) := by ring
      have h4 : m2.dataSize = m.dataSize * 2 := by omega
      calc m2.count * lfDen ≤ m.dataSize * lfDen := h2
        _ ≤ lfNum * (m.dataSize * 2) := h3
        _ = lfNum * m2.dataSize := by rw [h4]
    · intro k2 v2
      rw [hmem2, hmem1]
    · right
      omega
  · -- no growth needed
    rw [if_neg hgc] at hins
    have hb : m1.count * lfDen ≤ lfNum * m1.dataSize := by
      by_contra hcon
      push_neg at hcon
      exact hgc (by rw [growCheck]; exact decide_eq_true hcon)
    refine ⟨m1, hins, hw1, ?_, hhash1, hdk1, hdv1, by omega, hb, hmem1,
      Or.inl hds1⟩
    · have hlf := lfNum_lt_lfDen
      by_contra hcon
      push_neg at hcon
      have h2 : lfNum * m1.dataSize < lfDen * m1.dataSize :=
        mul_lt_mul_of_pos_right hlf (by omega)
      have h3 : lfDen * m1.dataSize ≤ lfDen * m1.count :=
        Nat.mul_le_mul_left _ hcon
      have h4 : m1.count * lfDen = lfDen * m1.count := Nat.mul_comm _ _
      omega

/-- `Emplace` on a well-formed, non-full table: it succeeds, preserves
well-formedness, stores the pair, leaves other keys untouched, and keeps
the load factor at or below the threshold whenever the count grew. -/
theorem Emplace_spec (m : LinearCoreMap K V) (hw : WfCore m)
    (hlt : m.count < m.dataSize) (k : K) (v : V) :
    ∃ m2, m.Emplace k v = some m2 ∧ WfCore m2 ∧ m2.count < m2.dataSize ∧
      m2.hash = m.hash ∧ m2.defaultKey = m.defaultKey ∧
      m2.defaultValue = m.defaultValue ∧
      m2.mem k v ∧
      (∀ k2 v2, k2 ≠ k → (m2.mem k2 v2 ↔ m.mem k2 v2)) ∧
      (m2.count = m.count ∨
        (m2.count = m.count + 1 ∧ m2.count * lfDen ≤ lfNum * m2.dataSize)) := by
  obtain ⟨e, hds⟩ := hw.pow
  have hpos := hw.pos
  have hh : m.home k < m.dataSize := home_lt hw.pow hw.pos k
  obtain ⟨r, hr⟩ := probeLoop_some_of_free m.used m.keys k hds hpos
    (m.home k) hh (exists_free hw hlt)
  have hr' : m.probe k = some r := hr
  obtain ⟨t, ht, hprev, hcase⟩ := probeLoop_spec_some m.used m.keys k hds
    hpos m.dataSize (m.home k) hh r hr
  rcases hcase with ⟨hre, hempty⟩ | ⟨hrf, hu, hkk⟩
  · -- miss: insert
    rw [hre] at hr'
    obtain ⟨m2, hins, hw2, hlt2, hhash2, hdk2, hdv2, hc2, hlf2, hmem2, _⟩ :=
      Insert_spec m hw hlt k v hr'
    refine ⟨m2, ?_, hw2, hlt2, hhash2, hdk2, hdv2, ?_, ?_, ?_⟩
    · rw [Emplace, hr']
      exact hins
    · rw [hmem2]
      exact Or.inl ⟨rfl, rfl⟩
    · intro k2 v2 hk2
      rw [hmem2]
      constructor
      · rintro (⟨hkk2, _⟩ | hm)
        · exact absurd hkk2 hk2
        · exact hm
      · exact Or.inr
    · exact Or.inr ⟨hc2, hlf2⟩
  · -- hit: overwrite the value in place
    rw [hrf] at hr'
    set i := (m.home k + t) % m.dataSize with hidef
    have hi : i < m.dataSize := mod_lt_ds hpos _
    refine ⟨{ m with values := Function.update m.values i v }, ?_, ?_,
      hlt, rfl, rfl, rfl, ?_, ?_, Or.inl rfl⟩
    · rw [Emplace, hr']
    · refine ⟨hw.pow, hw.big, ?_, ?_, ?_, ?_⟩
      · intro j hj
        exact hw.usedBound j hj
      · intro a ha b hb hua hub hk2
        exact hw.distinct a ha b hb hua hub hk2
      · intro a ha hua t2 ht2
        exact hw.chain a ha hua t2 ht2
      · exact hw.cardCount
    · exact ⟨i, hi, hu, hkk, Function.update_same i v m.values⟩
    · intro k2 v2 hk2
      constructor
      · rintro ⟨j, hj, hju, hjk, hjv⟩
        have hji : j ≠ i := by
          intro hcon
          rw [hcon] at hjk
          show False
          apply hk2
          rw [← hjk]
          show m.keys i = k
          exact hkk
        refine ⟨j, hj, hju, hjk, ?_⟩
        show m.values j = v2
        rw [← hjv]
        show m.values j = Function.update m.values i v j
        rw [Function.update_noteq hji]
      · rintro ⟨j, hj, hju, hjk, hjv⟩
        have hji : j ≠ i := by
          intro hcon
          rw [hcon] at hjk
          exact hk2 (hjk ▸ hkk) 
        refine ⟨j, hj, hju, hjk, ?_⟩
        show Function.update m.values i v j = v2
        rw [Function.update_noteq hji]
        exact hjv

/-- `TryEmplaceImpl` on a well-formed, non-full table: on a hit it changes
nothing and reports `false`; on a miss it inserts (with the growth check)
and reports `true`. -/
theorem TryEmplaceImpl_spec (m : LinearCoreMap K V) (hw : WfCore m)
    (hlt : m.count < m.dataSize) (k : K) (mk : Unit → V) :
    ∃ b m2, m.TryEmplaceImpl k mk = some (b, m2) ∧
      (b = false → m2 = m ∧ m.hasKey k) ∧
      (b = true → WfCore m2 ∧ m2.count < m2.dataSize ∧
        m2.hash = m.hash ∧ m2.defaultKey = m.defaultKey ∧
        m2.defaultValue = m.defaultValue ∧
        m2.mem k (mk ()) ∧
        (∀ k2 v2, k2 ≠ k → (m2.mem k2 v2 ↔ m.mem k2 v2)) ∧
        m2.count = m.count + 1 ∧ m2.count * lfDen ≤ lfNum * m2.dataSize) := by
  obtain ⟨e, hds⟩ := hw.pow
  have hpos := hw.pos
  have hh : m.home k < m.dataSize := home_lt hw.pow hw.pos k
  obtain ⟨r, hr⟩ := probeLoop_some_of_free m.used m.keys k hds hpos
    (m.home k) hh (exists_free hw hlt)
  have hr' : m.probe k = some r := hr
  obtain ⟨t, ht, hprev, hcase⟩ := probeLoop_spec_some m.used m.keys k hds
    hpos m.dataSize (m.home k) hh r hr
  rcases hcase with ⟨hre, hempty⟩ | ⟨hrf, hu, hkk⟩
  · -- miss: insert and return true
    rw [hre] at hr'
    obtain ⟨m2, hins, hw2, hlt2, hhash2, hdk2, hdv2, hc2, hlf2, hmem2, _⟩ :=
      Insert_spec m hw hlt k (mk ()) hr'
    refine ⟨true, m2, ?_, by simp, ?_⟩
    · rw [TryEmplaceImpl, hr']
      show (m.Insert k (mk ()) ((m.home k + t) % m.dataSize)).map
        (fun m2 => (true, m2)) = some (true, m2)
      rw [hins]
      rfl
    · intro _
      refine ⟨hw2, hlt2, hhash2, hdk2, hdv2, ?_, ?_, hc2, hlf2⟩
      · rw [hmem2]
        exact Or.inl ⟨rfl, rfl⟩
      · intro k2 v2 hk2
        rw [hmem2]
        constructor
        · rintro (⟨hkk2, _⟩ | hm)
          · exact absurd hkk2 hk2
          · exact hm
        · exact Or.inr
  · -- hit: no change, return false
    rw [hrf] at hr'
    refine ⟨false, m, ?_, ?_, by simp⟩
    · rw [TryEmplaceImpl, hr']
    · intro _
      exact ⟨rfl, (m.home k + t) % m.dataSize, mod_lt_ds hpos _, hu, hkk⟩

/-- `Rehash` with a formatted target that can hold the count: succeeds and
preserves the contents exactly. -/
theorem Rehash_ok (m : LinearCoreMap K V) (hw : WfCore m) (c : Nat)
    (hc : m.count ≤ FormatCapacity c) :
    ∃ m2, m.Rehash c = some (Except.ok m2) ∧ WfCore m2 ∧
      m2.count = m.count ∧ m2.dataSize = FormatCapacity c ∧
      m2.hash = m.hash ∧ m2.defaultKey = m.defaultKey ∧
      m2.defaultValue = m.defaultValue ∧
      (∀ k v, m2.mem k v ↔ m.mem k v) := by
  obtain ⟨e2, hpow⟩ := FormatCapacity_pow c
  obtain ⟨m2, hrz, hw2, hc2, hds2, hhash2, hdk2, hdv2, hmem2⟩ :=
    Resize_spec m hw hpow (FormatCapacity_ge_8 c) hc
  refine ⟨m2, ?_, hw2, hc2, hds2, hhash2, hdk2, hdv2, hmem2⟩
  show (if FormatCapacity c < m.count then some (Except.error ())
    else (m.Resize (FormatCapacity c)).map Except.ok) = some (Except.ok m2)
  rw [if_neg (by omega), hrz]
  rfl

/-- `Rehash` whose formatted target is below the count: the embedded
`throw` path, which touches no state. -/
theorem Rehash_err (m : LinearCoreMap K V) (c : Nat)
    (hc : FormatCapacity c < m.count) :
    m.Rehash c = some (Except.error ()) := by
  show (if FormatCapacity c < m.count then some (Except.error ())
    else (m.Resize (FormatCapacity c)).map Except.ok) = some (Except.error ())
  rw [if_pos hc]

end LinearCoreMap

/-! ## Concrete tables for witnesses and counterexamples -/

/-- A fresh `LinearMap<int>`-style table with capacity 8 (identity hash,
zero sentinels), as produced by the constructor. -/
def mapInit8 : LinearCoreMap Nat Nat := LinearMap.init Nat 0 8

theorem wf_mapInit8 : LinearCoreMap.Wf mapInit8 := by
  refine ⟨⟨⟨3, rfl⟩, by decide, ?_, ?_, ?_, by decide⟩, by decide⟩
  · intro i hi
    rfl
  · intro i hi j hj hu
    have hfalse : mapInit8.used i = false := rfl
    rw [hfalse] at hu
    cases hu
  · intro i hi hu
    have hfalse : mapInit8.used i = false := rfl
    rw [hfalse] at hu
    cases hu

/-! ## Claim C7 — GetOrCreate on a hit -/

/-- Claim C7: for every key already present in the table, `GetOrCreate`
returns the existing stored value and does not change the table; since the
right-hand side does not mention the producer at all, the producer is
irrelevant on a hit (it is only evaluated on a miss). -/
theorem c7_getOrCreate_hit {K V : Type} [DecidableEq K]
    (m : LinearCoreMap K V) (k : K) (h : m.Contains k = some true) :
    ∀ f : Unit → V, m.GetOrCreateImpl k f = (m.Get k).map (fun v => (v, m)) := by
  intro f
  rcases hp : m.probe k with _ | r
  · rw [LinearCoreMap.Contains, hp] at h
    exact absurd h (by simp)
  · cases r with
    | empty i =>
      rw [LinearCoreMap.Contains, hp] at h
      exact absurd h (by simp)
    | found i =>
      rw [LinearCoreMap.GetOrCreateImpl, hp, LinearCoreMap.Get, hp]
      rfl

/-- A capacity-8 integer table holding key 3. -/
def mapWith3 : LinearCoreMap Nat Nat :=
  (mapInit8.Emplace 3 103).getD mapInit8

theorem c7_witness :
    mapWith3.GetOrCreateImpl 3 (fun _ => 999) =
      (mapWith3.Get 3).map (fun v => (v, mapWith3)) :=
  c7_getOrCreate_hit mapWith3 3 (by decide) (fun _ => 999)

/-! ## Claim C8 — the home-slot formula -/

/-- Formalises the claim's (and spec's) home-slot formula verbatim:
`index = (raw_hash * GOLDEN_RATIO_CONSTANT) & (capacity - 1)` — without the
`+ 1` the code applies to the raw hash first. -/
def claimedHomeSpec (rawHash capacity : Nat) : Nat :=
  (rawHash * goldenConst) % u64 &&& (capacity - 1)

/-- Claim C8, counterexample: for raw hash 0 and capacity 8 the code's
`HashImpl` (and hence `GetSlot`/`slotOf`) places the key at slot 5, not at
the claimed slot 0: the code hashes `raw_hash + 1` ("fix for 0 keys"), not
`raw_hash`. -/
theorem c8_counterexample :
    claimedHomeSpec 0 8 = 0 ∧ HashImpl 0 8 = 5 ∧
      (slotOf IntHash (0 : Nat) 8).1 = 5 ∧
      claimedHomeSpec 0 8 ≠ (slotOf IntHash (0 : Nat) 8).1 := by
  decide

/-- Claim C8 (amended: the code multiplies `raw_hash + 1`, not `raw_hash`,
by the golden-ratio constant): for every raw hash and power-of-two capacity
the home slot is `((raw_hash + 1) * GOLDEN_RATIO_CONSTANT) mod 2^64`
reduced modulo the capacity, the mask equals `capacity - 1`, reduction with
the mask is reduction modulo the capacity, and every probe step
`(i + 1) & (capacity - 1)` stays inside the table. -/
theorem c8_amended_home_and_step {K : Type} (hashF : K → Nat) (key : K)
    {ds e : Nat} (hds : ds = 2 ^ e) (hpos : 0 < ds) :
    (slotOf hashF key ds).1 = ((hashF key + 1) * goldenConst) % u64 % ds ∧
    (slotOf hashF key ds).1 < ds ∧
    (slotOf hashF key ds).2 = ds - 1 ∧
    (∀ i : Nat, (i + 1) &&& (ds - 1) = (i + 1) % ds ∧
      (i + 1) &&& (ds - 1) < ds) := by
  have hmask : ∀ x : Nat, x &&& (ds - 1) = x % ds := mask_lt_of_pow hds
  have h1 : (slotOf hashF key ds).1 =
      ((hashF key + 1) * goldenConst) % u64 % ds := by
    show HashImpl (hashF key) ds &&& (ds - 1) = _
    rw [HashImpl, hmask, hmask, Nat.mod_mod_of_dvd _ (dvd_refl ds),
      Nat.mod_mul_mod]
  refine ⟨h1, ?_, rfl, ?_⟩
  · rw [h1]
    exact mod_lt_ds hpos _
  · intro i
    refine ⟨hmask (i + 1), ?_⟩
    rw [hmask]
    exact mod_lt_ds hpos _

theorem c8_amended_witness :
    (slotOf IntHash (7 : Nat) 8).1 = ((IntHash 7 + 1) * goldenConst) % u64 % 8 ∧
    (slotOf IntHash (7 : Nat) 8).1 < 8 ∧
    (slotOf IntHash (7 : Nat) 8).2 = 8 - 1 ∧
    (∀ i : Nat, (i + 1) &&& (8 - 1) = (i + 1) % 8 ∧ (i + 1) &&& (8 - 1) < 8) :=
  @c8_amended_home_and_step Nat IntHash 7 8 3 rfl (by decide)

/-! ## Claim C1 — inserted keys are retrievable, across Rehash -/

/-- Claim C1: on a well-formed table, `Emplace` (and `TryEmplace`, when it
reports an insertion) succeeds, after which `Contains` answers `true` and
`Get` returns the inserted value; and after any intervening `Rehash` to a
formatted capacity that can hold the count — larger or smaller than the
current capacity — both still hold. -/
theorem c1_emplace_tryemplace_rehash {K V : Type} [DecidableEq K]
    (m : LinearCoreMap K V) (hw : LinearCoreMap.Wf m) (k : K) (v : V)
    (mk : Unit → V) (c : Nat) :
    (∃ m1, m.Emplace k v = some m1) ∧
    (∀ m1, m.Emplace k v = some m1 →
      m1.Contains k = some true ∧ m1.Get k = some v ∧
      (m1.count ≤ FormatCapacity c →
        ∃ m2, m1.Rehash c = some (Except.ok m2) ∧
          m2.Contains k = some true ∧ m2.Get k = some v)) ∧
    (∀ m1, m.TryEmplaceImpl k mk = some (true, m1) →
      m1.Contains k = some true ∧ m1.Get k = some (mk ()) ∧
      (m1.count ≤ FormatCapacity c →
        ∃ m2, m1.Rehash c = some (Except.ok m2) ∧
          m2.Contains k = some true ∧ m2.Get k = some (mk ()))) := by
  obtain ⟨hwc, hlt⟩ := hw
  obtain ⟨m1', he, hw1, hlt1, _, _, _, hmem1, _, _⟩ :=
    LinearCoreMap.Emplace_spec m hwc hlt k v
  refine ⟨⟨m1', he⟩, ?_, ?_⟩
  · intro m1 hm1
    rw [he] at hm1
    have heq := Option.some.inj hm1
    subst heq
    have hlook := LinearCoreMap.lookup_of_mem hw1 hmem1
    refine ⟨hlook.1, hlook.2, ?_⟩
    intro hcap
    obtain ⟨m2, hrh, hw2, _, _, _, _, _, hmem2⟩ :=
      LinearCoreMap.Rehash_ok m1' hw1 c hcap
    have hlook2 := LinearCoreMap.lookup_of_mem hw2 ((hmem2 k v).mpr hmem1)
    exact ⟨m2, hrh, hlook2.1, hlook2.2⟩
  · intro m1 hm1
    obtain ⟨b, m1x, ht, hfalse, htrue⟩ :=
      LinearCoreMap.TryEmplaceImpl_spec m hwc hlt k mk
    rw [ht] at hm1
    have hp := Option.some.inj hm1
    have hb : b = true := congrArg Prod.fst hp
    have hmx : m1x = m1 := congrArg Prod.snd hp
    obtain ⟨hw1x, hlt1x, _, _, _, hmemx, _, _, _⟩ := htrue hb
    rw [hmx] at hw1x hmemx
    have hlook := LinearCoreMap.lookup_of_mem hw1x hmemx
    refine ⟨hlook.1, hlook.2, ?_⟩
    intro hcap
    obtain ⟨m2, hrh, hw2, _, _, _, _, _, hmem2⟩ :=
      LinearCoreMap.Rehash_ok m1 hw1x c hcap
    have hlook2 := LinearCoreMap.lookup_of_mem hw2 ((hmem2 k (mk ())).mpr hmemx)
    exact ⟨m2, hrh, hlook2.1, hlook2.2⟩

theorem c1_witness :
    ((∃ m1, mapInit8.Emplace 5 105 = some m1) ∧
    (∀ m1, mapInit8.Emplace 5 105 = some m1 →
      m1.Contains 5 = some true ∧ m1.Get 5 = some 105 ∧
      (m1.count ≤ FormatCapacity 64 →
        ∃ m2, m1.Rehash 64 = some (Except.ok m2) ∧
          m2.Contains 5 = some true ∧ m2.Get 5 = some 105)) ∧
    (∀ m1, mapInit8.TryEmplaceImpl 5 (fun _ => 99) = some (true, m1) →
      m1.Contains 5 = some true ∧ m1.Get 5 = some 99 ∧
      (m1.count ≤ FormatCapacity 64 →
        ∃ m2, m1.Rehash 64 = some (Except.ok m2) ∧
          m2.Contains 5 = some true ∧ m2.Get 5 = some 99))) :=
  c1_emplace_tryemplace_rehash mapInit8 wf_mapInit8 5 105 (fun _ => 99) 64

/-! ## Claim C3 — the load-factor invariant -/

/-- Claim C3, counterexample: starting from a fresh capacity-8 table, five
single emplaces (no growth: 5/8 ≤ 0.7) followed by the batch raw-pointer
`EmplaceAll` of one more pair return with `count = 6`, `capacity = 8`, and
the code's own load-factor test `growCheck` reporting that 6/8 = 0.75
exceeds the threshold — the batch path checks capacity only before
inserting and never doubles afterwards. -/
theorem c3_counterexample :
    ((((((mapInit8.Emplace 0 100).bind (fun m => m.Emplace 1 101)).bind
        (fun m => m.Emplace 2 102)).bind
        (fun m => m.Emplace 3 103)).bind
        (fun m => m.Emplace 4 104)).bind
        (fun m => m.EmplaceAllPtr (some [5]) (some [105]) 1)).map
      (fun m => (m.count, m.dataSize,
        LinearCoreMap.growCheck m.count m.dataSize, m.Get 5)) =
      some (6, 8, true, some 105) := by
  decide

/-- Claim C3 (amended: the bound holds for every grow-checking
single-insert path — `Emplace`, `TryEmplace`, and `GetOrCreate`, whose
pre-emptive `m_count + 1 > (size_t)(m_data_size * 0.7)` check grows before
writing; the batch `EmplaceAll` path ensures capacity only once up front
and can return with the load factor above the threshold): whenever a
single `Emplace` increases the count, whenever `TryEmplace` inserts, and
whenever `GetOrCreate` returns a table other than the unchanged input, the
resulting count over capacity is at most the threshold — a violating
insertion has doubled the capacity before returning. -/
theorem c3_amended_single_insert_load_bound {K V : Type} [DecidableEq K]
    (m : LinearCoreMap K V) (hw : LinearCoreMap.Wf m) (k : K) (v : V)
    (mk : Unit → V) :
    (∀ m2, m.Emplace k v = some m2 → m2.count = m.count + 1 →
      m2.count * lfDen ≤ lfNum * m2.dataSize) ∧
    (∀ m2, m.TryEmplaceImpl k mk = some (true, m2) →
      m2.count * lfDen ≤ lfNum * m2.dataSize) ∧
    (∀ v2 m2, m.GetOrCreateImpl k mk = some (v2, m2) →
      m2 = m ∨ m2.count * lfDen ≤ lfNum * m2.dataSize) := by
  obtain ⟨hwc, hlt⟩ := hw
  refine ⟨?_, ?_, ?_⟩
  · intro m2 hm2 hc
    obtain ⟨m2x, he, _, _, _, _, _, _, _, hcnt⟩ :=
      LinearCoreMap.Emplace_spec m hwc hlt k v
    rw [he] at hm2
    have heq := Option.some.inj hm2
    subst heq
    rcases hcnt with hsame | ⟨_, hbound⟩
    · omega
    · exact hbound
  · intro m2 hm2
    obtain ⟨b, m2x, ht, hfalse, htrue⟩ :=
      LinearCoreMap.TryEmplaceImpl_spec m hwc hlt k mk
    rw [ht] at hm2
    have hp := Option.some.inj hm2
    have hb : b = true := congrArg Prod.fst hp
    have hmx : m2x = m2 := congrArg Prod.snd hp
    obtain ⟨_, _, _, _, _, _, _, _, hbound⟩ := htrue hb
    rw [hmx] at hbound
    exact hbound
  · intro v2 m2 hm2
    cases hp : m.probe k with
    | none =>
      simp only [LinearCoreMap.GetOrCreateImpl, hp] at hm2
      exact Option.noConfusion hm2
    | some hit =>
      cases hit with
      | found i =>
        simp only [LinearCoreMap.GetOrCreateImpl, hp] at hm2
        left
        exact (congrArg (fun p => p.2) (Option.some.inj hm2)).symm
      | empty i =>
        right
        have hins : m.Insert k (mk ()) i = some m2 := by
          simp only [LinearCoreMap.GetOrCreateImpl, hp] at hm2
          have h0 : 0 < lfDen := by norm_num [lfDen]
          have hieq : m.Insert k (mk ()) i =
              if LinearCoreMap.growCheck (m.InsertNoGrow k (mk ()) i).count
                  (m.InsertNoGrow k (mk ()) i).dataSize then
                (m.InsertNoGrow k (mk ()) i).Resize
                  ((m.InsertNoGrow k (mk ()) i).dataSize * 2)
              else some (m.InsertNoGrow k (mk ()) i) := rfl
          by_cases hc : m.count + 1 > lfNum * m.dataSize / lfDen
          · rw [if_pos hc] at hm2
            cases hg : m.InsertAndGrow k (mk ()) i with
            | none => rw [hg] at hm2; exact Option.noConfusion hm2
            | some m3 =>
              simp only [hg] at hm2
              cases hk : LinearCoreMap.keyScanLoop m3.keys k
                  (m3.GetSlot k m3.dataSize).2 m3.dataSize
                  (m3.GetSlot k m3.dataSize).1 with
              | none => rw [hk] at hm2; exact Option.noConfusion hm2
              | some j =>
                rw [hk] at hm2
                have h3 : m3 = m2 :=
                  congrArg (fun p => p.2) (Option.some.inj hm2)
                have hgt : LinearCoreMap.growCheck
                    (m.InsertNoGrow k (mk ()) i).count
                    (m.InsertNoGrow k (mk ()) i).dataSize = true := by
                  have hlt2 : lfNum * m.dataSize < (m.count + 1) * lfDen :=
                    (Nat.div_lt_iff_lt_mul h0).1 hc
                  simp only [LinearCoreMap.growCheck, decide_eq_true_eq]
                  exact hlt2
                rw [hieq, if_pos hgt, ← h3, ← hg]
                rfl
          · rw [if_neg hc] at hm2
            have h3 : m.InsertNoGrow k (mk ()) i = m2 :=
              congrArg (fun p => p.2) (Option.some.inj hm2)
            have hle : m.count + 1 ≤ lfNum * m.dataSize / lfDen :=
              Nat.not_lt.1 hc
            have hmul : (m.count + 1) * lfDen ≤ lfNum * m.dataSize :=
              (Nat.le_div_iff_mul_le h0).1 hle
            have hgf : LinearCoreMap.growCheck
                (m.InsertNoGrow k (mk ()) i).count
                (m.InsertNoGrow k (mk ()) i).dataSize = false := by
              simp only [LinearCoreMap.growCheck, decide_eq_false_iff_not]
              intro hcontra
              have hcontra2 : lfNum * m.dataSize < (m.count + 1) * lfDen :=
                hcontra
              exact absurd hcontra2 (Nat.not_lt.2 hmul)
            have hneg : ¬ (LinearCoreMap.growCheck
                (m.InsertNoGrow k (mk ()) i).count
                (m.InsertNoGrow k (mk ()) i).dataSize = true) := by
              rw [hgf]
              decide
            rw [hieq, if_neg hneg, h3]
        obtain ⟨m2x, he, _, _, _, _, _, _, hbound, _, _⟩ :=
          LinearCoreMap.Insert_spec m hwc hlt k (mk ()) hp
        rw [hins] at he
        have heq : m2 = m2x := Option.some.inj he
        rw [heq]
        exact hbound

theorem c3_witness :
    ((∀ m2, mapInit8.Emplace 5 105 = some m2 → m2.count = mapInit8.count + 1 →
      m2.count * lfDen ≤ lfNum * m2.dataSize) ∧
    (∀ m2, mapInit8.TryEmplaceImpl 5 (fun _ => 99) = some (true, m2) →
      m2.count * lfDen ≤ lfNum * m2.dataSize) ∧
    (∀ v2 m2, mapInit8.GetOrCreateImpl 5 (fun _ => 99) = some (v2, m2) →
      m2 = mapInit8 ∨ m2.count * lfDen ≤ lfNum * m2.dataSize)) :=
  c3_amended_single_insert_load_bound mapInit8 wf_mapInit8 5 105 (fun _ => 99)

/-! ## Claim C5 — Rehash to a small capacity -/

/-- Claim C5, counterexample: a table holding 10 entries at capacity 16,
asked to `Rehash(9)` — the requested capacity 9 is strictly smaller than
the count 10, yet no error is signalled: `FormatCapacity` first rounds 9 up
to 16, the guard compares the rounded value, and the call resizes
successfully keeping all data (count 10, capacity 16, key 3 still maps to
103). -/
theorem c5_counterexample :
    (((List.range 10).foldlM
        (fun (m : LinearCoreMap Nat Nat) k => m.Emplace k (100 + k))
        (LinearMap.init Nat 0 16)).bind
      (fun m => (m.Rehash 9).map (fun r =>
        match r with
        | Except.ok mm => (true, mm.count, mm.dataSize, mm.Contains 9, mm.Get 3)
        | Except.error _ => (false, 0, 0, none, none)))) =
      some (true, 10, 16, some true, some 103) := by
  decide

/-- Claim C5 (amended: `Rehash` rejects the request exactly when the
*rounded* capacity `FormatCapacity(new_capacity)` is smaller than the
current count — a raw request below the count whose rounding reaches the
count is accepted): on the error side the table is untouched (the guard
precedes any mutation), and on the success side the table is rebuilt at the
formatted capacity with the same count and exactly the same contents. -/
theorem c5_amended_rehash_guard {K V : Type} [DecidableEq K]
    (m : LinearCoreMap K V) (hw : LinearCoreMap.WfCore m) (c : Nat) :
    (FormatCapacity c < m.count → m.Rehash c = some (Except.error ())) ∧
    (m.count ≤ FormatCapacity c →
      ∃ m2, m.Rehash c = some (Except.ok m2) ∧ LinearCoreMap.WfCore m2 ∧
        m2.count = m.count ∧ m2.dataSize = FormatCapacity c ∧
        (∀ k v, m2.mem k v ↔ m.mem k v)) := by
  constructor
  · intro hc
    exact LinearCoreMap.Rehash_err m c hc
  · intro hc
    obtain ⟨m2, hrh, hw2, hc2, hds2, _, _, _, hmem2⟩ :=
      LinearCoreMap.Rehash_ok m hw c hc
    exact ⟨m2, hrh, hw2, hc2, hds2, hmem2⟩

theorem c5_witness :
    ((FormatCapacity 32 < mapInit8.count →
      mapInit8.Rehash 32 = some (Except.error ())) ∧
    (mapInit8.count ≤ FormatCapacity 32 →
      ∃ m2, mapInit8.Rehash 32 = some (Except.ok m2) ∧
        LinearCoreMap.WfCore m2 ∧
        m2.count = mapInit8.count ∧ m2.dataSize = FormatCapacity 32 ∧
        (∀ k v, m2.mem k v ↔ mapInit8.mem k v))) :=
  c5_amended_rehash_guard mapInit8 wf_mapInit8.1 32

/-! ## Characterisation of the three loops inside Erase -/

theorem pos_inj {ds : Nat} (hpos : 0 < ds) (i : Nat) {a b : Nat}
    (ha : a < ds) (hb : b < ds) (h : (i + a) % ds = (i + b) % ds) : a = b := by
  have hmod : a % ds = b % ds := Nat.ModEq.add_left_cancel' i h
  rwa [Nat.mod_eq_of_lt ha, Nat.mod_eq_of_lt hb] at hmod

namespace LinearCoreMap

variable {K V : Type} [DecidableEq K]

/-- Soundness of the find loop of `Erase`: a result `some inc` means the key
sits `inc - acc` probe steps beyond the current position, with every
intermediate slot occupied by a different key. -/
theorem eraseFindLoop_found (used : Nat → Bool) (keys : Nat → K) (key : K)
    {ds e : Nat} (hds : ds = 2 ^ e) (hpos : 0 < ds) :
    ∀ (fuel p acc : Nat), p < ds → ∀ inc,
      eraseFindLoop used keys key (ds - 1) fuel p acc = some (some inc) →
      acc ≤ inc ∧ inc - acc < fuel ∧
      (∀ s, s < inc - acc → used ((p + s) % ds) = true ∧
        keys ((p + s) % ds) ≠ key) ∧
      used ((p + (inc - acc)) % ds) = true ∧
      keys ((p + (inc - acc)) % ds) = key := by
  intro fuel
  induction fuel with
  | zero => intro p acc hp inc hr; simp [eraseFindLoop] at hr
  | succ fuel ih =>
    intro p acc hp inc hr
    rw [eraseFindLoop] at hr
    by_cases hu : used p = false
    · rw [if_pos hu] at hr
      exact absurd (Option.some.inj hr) (by simp)
    · rw [if_neg hu] at hr
      have hu' : used p = true := by
        cases h : used p
        · exact absurd h hu
        · rfl
      by_cases hk : keys p = key
      · rw [if_pos hk] at hr
        have hacc : acc = inc := Option.some.inj (Option.some.inj hr)
        subst hacc
        have hp0 : (p + (acc - acc)) % ds = p := by
          simp [Nat.mod_eq_of_lt hp]
        refine ⟨le_rfl, by omega, by omega, ?_, ?_⟩
        · rw [hp0]; exact hu'
        · rw [hp0]; exact hk
      · rw [if_neg hk, mask_lt_of_pow hds] at hr
        obtain ⟨hle, hlt, hprev, hufin, hkfin⟩ :=
          ih ((p + 1) % ds) (acc + 1) (mod_lt_ds hpos _) inc hr
        have hshift : ∀ s, ((p + 1) % ds + s) % ds = (p + 1 + s) % ds :=
          fun s => mod_add_shift ds p s
        refine ⟨by omega, by omega, ?_, ?_, ?_⟩
        · intro s hs
          cases s with
          | zero =>
            have hp0 : (p + 0) % ds = p := by simp [Nat.mod_eq_of_lt hp]
            rw [hp0]; exact ⟨hu', hk⟩
          | succ s =>
            have hs' : s < inc - (acc + 1) := by omega
            have := hprev s hs'
            rw [hshift, Nat.add_right_comm p 1 s] at this
            exact this
        · have heq1 : inc - acc = (inc - (acc + 1)) + 1 := by omega
          have harr : p + ((inc - (acc + 1)) + 1) = p + 1 + (inc - (acc + 1)) := by
            omega
          rw [heq1, harr, ← hshift]
          exact hufin
        · have heq1 : inc - acc = (inc - (acc + 1)) + 1 := by omega
          have harr : p + ((inc - (acc + 1)) + 1) = p + 1 + (inc - (acc + 1)) := by
            omega
          rw [heq1, harr, ← hshift]
          exact hkfin

/-- The break test of the count loop of `Erase` is exactly "this slot is
unoccupied, or its home is not the adjusted start": the `size_t` trick
`start_other += (2^64 - 1 - m_data_size) * (1 - used)` pushes unoccupied
slots out of range of any valid start index (given `capacity ≤ 2^63`). -/
theorem eraseCountLoop_break_iff (m : LinearCoreMap K V) {e : Nat}
    (hds : m.dataSize = 2 ^ e) (hpos : 0 < m.dataSize)
    (hb : m.dataSize ≤ 2 ^ 63) {s : Nat} (hs : s + 1 < m.dataSize)
    (p : Nat) :
    (((m.GetSlot (m.keys p) m.dataSize).1 +
        (u64 - 1 - m.dataSize) * (1 - (if m.used p then 1 else 0))) % u64 ≠ s)
      ↔ ¬(m.used p = true ∧
          homeOf m.hash (m.keys p) m.dataSize = s) := by
  have hso : (m.GetSlot (m.keys p) m.dataSize).1 =
      homeOf m.hash (m.keys p) m.dataSize := rfl
  have hsolt : homeOf m.hash (m.keys p) m.dataSize < m.dataSize :=
    homeOf_lt m.hash (m.keys p) hds hpos
  have hu64 : u64 = 2 * 2 ^ 63 := by rw [u64, Nat.pow_succ, Nat.mul_comm]
  by_cases hu : m.used p
  · rw [if_pos hu]
    have hz : (1 : Nat) - 1 = 0 := rfl
    rw [hso, hz, Nat.mul_zero, Nat.add_zero,
      Nat.mod_eq_of_lt (by omega)]
    simp [hu]
  · rw [if_neg hu]
    have hadj : (homeOf m.hash (m.keys p) m.dataSize +
        (u64 - 1 - m.dataSize) * (1 - 0)) % u64 =
        homeOf m.hash (m.keys p) m.dataSize + (u64 - 1 - m.dataSize) := by
      rw [Nat.mul_one, Nat.mod_eq_of_lt (by omega)]
    rw [hso, hadj]
    have hne : homeOf m.hash (m.keys p) m.dataSize +
        (u64 - 1 - m.dataSize) ≠ s := by omega
    simp [hne, hu]

/-- Soundness of the count loop of `Erase`: a result `some n` counts exactly
the contiguous run, from the current position on, of occupied slots whose
home index equals `s`, and the slot just past the run breaks the
condition. -/
theorem eraseCountLoop_sound (m : LinearCoreMap K V) {e : Nat}
    (hds : m.dataSize = 2 ^ e) (hpos : 0 < m.dataSize)
    (hb : m.dataSize ≤ 2 ^ 63) {s : Nat} (hs : s + 1 < m.dataSize) :
    ∀ (fuel p acc : Nat), p < m.dataSize → ∀ n,
      eraseCountLoop m s fuel p acc = some n →
      acc ≤ n ∧ n - acc < fuel ∧
      (∀ t, t < n - acc → m.used ((p + t) % m.dataSize) = true ∧
        homeOf m.hash (m.keys ((p + t) % m.dataSize)) m.dataSize = s) ∧
      ¬(m.used ((p + (n - acc)) % m.dataSize) = true ∧
        homeOf m.hash (m.keys ((p + (n - acc)) % m.dataSize)) m.dataSize = s) := by
  intro fuel
  induction fuel with
  | zero => intro p acc hp n hr; simp [eraseCountLoop] at hr
  | succ fuel ih =>
    intro p acc hp n hr
    rw [eraseCountLoop] at hr
    by_cases hbrk : ((m.GetSlot (m.keys p) m.dataSize).1 +
        (u64 - 1 - m.dataSize) * (1 - (if m.used p then 1 else 0))) % u64 ≠ s
    · rw [if_pos hbrk] at hr
      have hacc : acc = n := Option.some.inj hr
      subst hacc
      have hp0 : (p + (acc - acc)) % m.dataSize = p := by
        simp [Nat.mod_eq_of_lt hp]
      refine ⟨le_rfl, by omega, by omega, ?_⟩
      rw [hp0]
      exact (eraseCountLoop_break_iff m hds hpos hb hs p).mp hbrk
    · rw [if_neg hbrk] at hr
      push_neg at hbrk
      have hcond : m.used p = true ∧
          homeOf m.hash (m.keys p) m.dataSize = s := by
        by_contra hcon
        exact ((eraseCountLoop_break_iff m hds hpos hb hs p).mpr hcon) hbrk
      rw [mask_lt_of_pow hds] at hr
      obtain ⟨hle, hlt, hprev, hbreak⟩ :=
        ih ((p + 1) % m.dataSize) (acc + 1) (mod_lt_ds hpos _) n hr
      have hshift : ∀ t, ((p + 1) % m.dataSize + t) % m.dataSize =
          (p + 1 + t) % m.dataSize :=
        fun t => mod_add_shift m.dataSize p t
      refine ⟨by omega, by omega, ?_, ?_⟩
      · intro t ht
        cases t with
        | zero =>
          have hp0 : (p + 0) % m.dataSize = p := by
            simp [Nat.mod_eq_of_lt hp]
          rw [hp0]; exact hcond
        | succ t =>
          have ht' : t < n - (acc + 1) := by omega
          have := hprev t ht'
          rw [hshift, Nat.add_right_comm p 1 t] at this
          exact this
      · have heq : n - acc = (n - (acc + 1)) + 1 := by omega
        have harr : p + ((n - (acc + 1)) + 1) = p + 1 + (n - (acc + 1)) := by
          omega
        rw [heq, harr, ← hshift]
        exact hbreak

/-- Progress of the count loop: with fuel `dataSize` and a free slot
somewhere in the table, the loop stops. -/
theorem eraseCountLoop_some (m : LinearCoreMap K V) {e : Nat}
    (hds : m.dataSize = 2 ^ e) (hpos : 0 < m.dataSize)
    (hb : m.dataSize ≤ 2 ^ 63) {s : Nat} (hs : s + 1 < m.dataSize)
    (hfree : ∃ u, u < m.dataSize ∧ m.used u = false) :
    ∃ n, eraseCountLoop m s m.dataSize (s + 1) 0 = some n := by
  have hnone : ∀ (fuel p acc : Nat), p < m.dataSize →
      eraseCountLoop m s fuel p acc = none →
      ∀ t, t < fuel → m.used ((p + t) % m.dataSize) = true := by
    intro fuel
    induction fuel with
    | zero => intro p acc hp hr t ht; omega
    | succ fuel ih =>
      intro p acc hp hr t ht
      rw [eraseCountLoop] at hr
      by_cases hbrk : ((m.GetSlot (m.keys p) m.dataSize).1 +
          (u64 - 1 - m.dataSize) * (1 - (if m.used p then 1 else 0))) % u64 ≠ s
      · rw [if_pos hbrk] at hr
        exact absurd hr (by simp)
      · rw [if_neg hbrk] at hr
        push_neg at hbrk
        have hcond : m.used p = true ∧
            homeOf m.hash (m.keys p) m.dataSize = s := by
          by_contra hcon
          exact ((eraseCountLoop_break_iff m hds hpos hb hs p).mpr hcon) hbrk
        rw [mask_lt_of_pow hds] at hr
        cases t with
        | zero =>
          have hp0 : (p + 0) % m.dataSize = p := by
            simp [Nat.mod_eq_of_lt hp]
          rw [hp0]; exact hcond.1
        | succ t =>
          have := ih ((p + 1) % m.dataSize) (acc + 1) (mod_lt_ds hpos _)
            hr t (by omega)
          rwa [mod_add_shift, Nat.add_right_comm p 1 t] at this
  cases hr : eraseCountLoop m s m.dataSize (s + 1) 0 with
  | some n => exact ⟨n, rfl⟩
  | none =>
    exfalso
    obtain ⟨u, hu, hufree⟩ := hfree
    have hall := hnone m.dataSize (s + 1) 0 (by omega) hr
    have ht : (u + m.dataSize - (s + 1)) % m.dataSize < m.dataSize :=
      mod_lt_ds hpos _
    have hx := hall _ ht
    have hkey : ((s + 1) + (u + m.dataSize - (s + 1)) % m.dataSize) %
        m.dataSize = u := by
      have h1 : ((s + 1) + (u + m.dataSize - (s + 1)) % m.dataSize) %
          m.dataSize = ((s + 1) + (u + m.dataSize - (s + 1))) % m.dataSize :=
        Nat.add_mod_mod _ _ _
      have h2 : (s + 1) + (u + m.dataSize - (s + 1)) = u + m.dataSize := by
        omega
      rw [h1, h2, Nat.add_mod_right, Nat.mod_eq_of_lt hu]
    rw [hkey, hufree] at hx
    exact absurd hx (by simp)

end LinearCoreMap

/-- Characterisation of the backward-shift loop of `Erase`: with fewer
iterations than slots, each shifted slot receives the contents of its
successor (in probe order), and every other index is untouched. -/
theorem eraseShiftLoop_spec {K V : Type} {ds e : Nat} (hds : ds = 2 ^ e)
    (hpos : 0 < ds) :
    ∀ (N : Nat) (i : Nat) (keys : Nat → K) (values : Nat → V)
      (used : Nat → Bool), N < ds → i < ds →
      ((∀ t, t < N →
        (LinearCoreMap.eraseShiftLoop (ds - 1) keys values used N i).1
            ((i + t) % ds) = keys ((i + t + 1) % ds) ∧
        (LinearCoreMap.eraseShiftLoop (ds - 1) keys values used N i).2.1
            ((i + t) % ds) = values ((i + t + 1) % ds) ∧
        (LinearCoreMap.eraseShiftLoop (ds - 1) keys values used N i).2.2
            ((i + t) % ds) = used ((i + t + 1) % ds)) ∧
      (∀ j, (∀ t, t < N → j ≠ (i + t) % ds) →
        (LinearCoreMap.eraseShiftLoop (ds - 1) keys values used N i).1 j =
          keys j ∧
        (LinearCoreMap.eraseShiftLoop (ds - 1) keys values used N i).2.1 j =
          values j ∧
        (LinearCoreMap.eraseShiftLoop (ds - 1) keys values used N i).2.2 j =
          used j)) := by
  intro N
  induction N with
  | zero =>
    intro i keys values used hN hi
    exact ⟨by omega, fun j hj => ⟨rfl, rfl, rfl⟩⟩
  | succ N ih =>
    intro i keys values used hN hi
    have hnext : (i + 1) &&& (ds - 1) = (i + 1) % ds := mask_lt_of_pow hds _
    have hloop : LinearCoreMap.eraseShiftLoop (ds - 1) keys values used
        (N + 1) i =
        LinearCoreMap.eraseShiftLoop (ds - 1)
          (Function.update keys i (keys ((i + 1) % ds)))
          (Function.update values i (values ((i + 1) % ds)))
          (Function.update used i (used ((i + 1) % ds)))
          N ((i + 1) % ds) := by
      rw [LinearCoreMap.eraseShiftLoop]
      rw [hnext]
    obtain ⟨hmain, huntouched⟩ := ih ((i + 1) % ds)
      (Function.update keys i (keys ((i + 1) % ds)))
      (Function.update values i (values ((i + 1) % ds)))
      (Function.update used i (used ((i + 1) % ds)))
      (by omega) (mod_lt_ds hpos _)
    have hshift : ∀ t, ((i + 1) % ds + t) % ds = (i + 1 + t) % ds :=
      fun t => mod_add_shift ds i t
    have hi0 : (i + 0) % ds = i := by simp [Nat.mod_eq_of_lt hi]
    constructor
    · intro t ht
      cases t with
      | zero =>
        -- slot i receives the contents of slot (i+1) % ds
        have hnotpos : ∀ t2, t2 < N → i ≠ ((i + 1) % ds + t2) % ds := by
          intro t2 ht2 hcon
          rw [hshift] at hcon
          have h1 : (i + 0) % ds = (i + (1 + t2)) % ds := by
            rw [hi0]
            have h2 : i + 1 + t2 = i + (1 + t2) := by omega
            rw [← h2]
            exact hcon
          have := pos_inj hpos i (by omega) (by omega) h1
          omega
        have hu := huntouched i hnotpos
        rw [hloop, hi0]
        refine ⟨?_, ?_, ?_⟩
        · rw [hu.1, Function.update_same]
        · rw [hu.2.1, Function.update_same]
        · rw [hu.2.2, Function.update_same]
      | succ t =>
        have ht2 : t < N := by omega
        have hm := hmain t ht2
        have e1 : ((i + 1) % ds + t) % ds = (i + (t + 1)) % ds := by
          rw [hshift]
          congr 1
          omega
        have e2 : ((i + 1) % ds + t + 1) % ds = (i + (t + 1) + 1) % ds := by
          have h3 : (i + 1) % ds + t + 1 = (i + 1) % ds + (t + 1) := by omega
          rw [h3, hshift]
          congr 1
          omega
        rw [e1, e2] at hm
        have hne : (i + (t + 1) + 1) % ds ≠ i := by
          intro hcon
          have h1 : (i + (t + 2)) % ds = (i + 0) % ds := by
            rw [hi0]
            have h2 : i + (t + 1) + 1 = i + (t + 2) := by omega
            rw [← h2]
            exact hcon
          have := pos_inj hpos i (by omega) (by omega) h1
          omega
        rw [hloop]
        refine ⟨?_, ?_, ?_⟩
        · rw [hm.1, Function.update_noteq hne]
        · rw [hm.2.1, Function.update_noteq hne]
        · rw [hm.2.2, Function.update_noteq hne]
    · intro j hj
      have hji : j ≠ i := by
        have := hj 0 (by omega)
        rwa [hi0] at this
      have hnotpos : ∀ t2, t2 < N → j ≠ ((i + 1) % ds + t2) % ds := by
        intro t2 ht2
        rw [hshift]
        have := hj (t2 + 1) (by omega)
        intro hcon
        apply this
        rw [hcon]
        congr 1
        omega
      have hu := huntouched j hnotpos
      rw [hloop]
      refine ⟨?_, ?_, ?_⟩
      · rw [hu.1, Function.update_noteq hji]
      · rw [hu.2.1, Function.update_noteq hji]
      · rw [hu.2.2, Function.update_noteq hji]

namespace LinearCoreMap

variable {K V : Type} [DecidableEq K]

/-- Full specification of a successful `Erase` when the key is found `inc`
steps past its home without wrapping off the end of the array: the count
loop returns the length `n` of the contiguous run of occupied slots after
the found slot `s` whose home index equals `s`; `Erase` returns `true`,
decrements the count, shifts exactly those `n` entries back one slot,
clears the vacated slot, and afterwards `Contains` on the erased key
answers `false`. -/
theorem Erase_found_spec (m : LinearCoreMap K V) (hw : Wf m) (k : K)
    (inc s : Nat) (hseq : s = m.home k + inc)
    (hfind : eraseFindLoop m.used m.keys k (m.dataSize - 1) m.dataSize
      (m.home k) 0 = some (some inc))
    (hnw : s + 1 < m.dataSize) (hb : m.dataSize ≤ 2 ^ 63) :
    ∃ n m2, eraseCountLoop m s m.dataSize (s + 1) 0 = some n ∧
      n < m.dataSize ∧
      (∀ t, t < n → m.used ((s + 1 + t) % m.dataSize) = true ∧
        homeOf m.hash (m.keys ((s + 1 + t) % m.dataSize)) m.dataSize = s) ∧
      ¬(m.used ((s + 1 + n) % m.dataSize) = true ∧
        homeOf m.hash (m.keys ((s + 1 + n) % m.dataSize)) m.dataSize = s) ∧
      m.Erase k = some (true, m2) ∧
      m2.count = m.count - 1 ∧
      m2.dataSize = m.dataSize ∧
      m2.Contains k = some false ∧
      (∀ t, t < n →
        m2.keys ((s + t) % m.dataSize) = m.keys ((s + t + 1) % m.dataSize) ∧
        m2.values ((s + t) % m.dataSize) = m.values ((s + t + 1) % m.dataSize) ∧
        m2.used ((s + t) % m.dataSize) = m.used ((s + t + 1) % m.dataSize)) ∧
      m2.used ((s + n) % m.dataSize) = false := by
  obtain ⟨hwc, hlt⟩ := hw
  obtain ⟨e, hds⟩ := hwc.pow
  have hpos := hwc.pos
  have hh : m.home k < m.dataSize := home_lt hwc.pow hpos k
  have hslt : s < m.dataSize := by omega
  obtain ⟨-, hincds, hprev, hku, hkk⟩ :=
    eraseFindLoop_found m.used m.keys k hds hpos m.dataSize (m.home k) 0 hh
      inc hfind
  rw [Nat.sub_zero] at hincds hku hkk
  have hmods : (m.home k + inc) % m.dataSize = s := by
    rw [← hseq]
    exact Nat.mod_eq_of_lt hslt
  have hus : m.used s = true := by rw [← hmods]; exact hku
  have hks : m.keys s = k := by rw [← hmods]; exact hkk
  have hfree := exists_free hwc hlt
  obtain ⟨n, hcnt⟩ := eraseCountLoop_some m hds hpos hb hnw hfree
  obtain ⟨-, hnlt, hrun, hbrk⟩ :=
    eraseCountLoop_sound m hds hpos hb hnw m.dataSize (s + 1) 0 (by omega)
      n hcnt
  rw [Nat.sub_zero] at hnlt hrun hbrk
  have hge1 : (m.GetSlot k m.dataSize).1 = m.home k := rfl
  have hge2 : (m.GetSlot k m.dataSize).2 = m.dataSize - 1 := rfl
  have hg : (m.GetSlot k m.dataSize).1 + inc = s := by
    rw [hge1]
    omega
  have hfind2 : eraseFindLoop m.used m.keys k (m.GetSlot k m.dataSize).2
      m.dataSize (m.GetSlot k m.dataSize).1 0 = some (some inc) := hfind
  have hcnt2 : eraseCountLoop m ((m.GetSlot k m.dataSize).1 + inc) m.dataSize
      ((m.GetSlot k m.dataSize).1 + inc + 1) 0 = some n := by
    rw [hg]
    exact hcnt
  by_cases hn0 : n = 0
  · -- no keys above: just clear slot s
    subst hn0
    refine ⟨0, { m with
        used := Function.update m.used s false
        keys := Function.update m.keys s m.defaultKey
        values := Function.update m.values s m.defaultValue
        count := m.count - 1 },
      hcnt, hnlt, hrun, hbrk, ?_, rfl, rfl, ?_,
      fun t ht => absurd ht (by omega), ?_⟩
    · -- Erase evaluates to the cleared table
      show m.Erase k = _
      simp only [Erase, hfind2, hcnt2, hg, hcnt, if_true]
    · -- Contains is false afterwards
      have hs0 : ((s + 0) % m.dataSize) = s := by
        simp [Nat.mod_eq_of_lt hslt]
      have hnokey : ¬ ({ m with
          used := Function.update m.used s false
          keys := Function.update m.keys s m.defaultKey
          values := Function.update m.values s m.defaultValue
          count := m.count - 1 } : LinearCoreMap K V).hasKey k := by
        rintro ⟨j, hj, hju, hjk⟩
        have hju2 : Function.update m.used s false j = true := hju
        have hjk2 : Function.update m.keys s m.defaultKey j = k := hjk
        by_cases hjs : j = s
        · subst hjs
          rw [Function.update_same] at hju2
          exact absurd hju2 (by simp)
        · rw [Function.update_noteq hjs] at hju2
          rw [Function.update_noteq hjs] at hjk2
          exact hjs (hwc.distinct j hj s hslt hju2 hus (by rw [hjk2, hks]))
      have hfree2 : ∃ u, u < m.dataSize ∧
          (Function.update m.used s false) u = false :=
        ⟨s, hslt, Function.update_same s false m.used⟩
      exact (@lookup_of_not_hasKey K V _ { m with
          used := Function.update m.used s false
          keys := Function.update m.keys s m.defaultKey
          values := Function.update m.values s m.defaultValue
          count := m.count - 1 } ⟨e, hds⟩ hpos hfree2 k hnokey).1
    · -- the vacated slot is slot s itself
      show (Function.update m.used s false) ((s + 0) % m.dataSize) = false
      have hs0 : ((s + 0) % m.dataSize) = s := by
        simp [Nat.mod_eq_of_lt hslt]
      rw [hs0]
      exact Function.update_same s false m.used
  · -- keys above: shift the run back one slot and clear the last slot
    have hmask : (s + n) &&& (m.dataSize - 1) = (s + n) % m.dataSize :=
      mask_lt_of_pow hds _
    obtain ⟨hshmain, hshun⟩ := eraseShiftLoop_spec hds hpos n s m.keys
      m.values m.used hnlt hslt
    have hlast : (s + n) % m.dataSize < m.dataSize := mod_lt_ds hpos _
    refine ⟨n, { m with
        keys := Function.update
          (eraseShiftLoop (m.dataSize - 1) m.keys m.values m.used n s).1
          ((s + n) % m.dataSize) m.defaultKey
        values := Function.update
          (eraseShiftLoop (m.dataSize - 1) m.keys m.values m.used n s).2.1
          ((s + n) % m.dataSize) m.defaultValue
        used := Function.update
          (eraseShiftLoop (m.dataSize - 1) m.keys m.values m.used n s).2.2
          ((s + n) % m.dataSize) false
        count := m.count - 1 },
      hcnt, hnlt, hrun, hbrk, ?_, rfl, rfl, ?_, ?_, ?_⟩
    · -- Erase evaluates to the shifted table
      show m.Erase k = _
      simp only [Erase, hfind2, hcnt2, hg, hcnt, if_neg hn0]
      rw [hge2, hmask]
    · -- Contains is false afterwards
      have hnokey : ¬ ({ m with
          keys := Function.update
            (eraseShiftLoop (m.dataSize - 1) m.keys m.values m.used n s).1
            ((s + n) % m.dataSize) m.defaultKey
          values := Function.update
            (eraseShiftLoop (m.dataSize - 1) m.keys m.values m.used n s).2.1
            ((s + n) % m.dataSize) m.defaultValue
          used := Function.update
            (eraseShiftLoop (m.dataSize - 1) m.keys m.values m.used n s).2.2
            ((s + n) % m.dataSize) false
          count := m.count - 1 } : LinearCoreMap K V).hasKey k := by
        rintro ⟨j, hj, hju, hjk⟩
        have hju2 : Function.update
            (eraseShiftLoop (m.dataSize - 1) m.keys m.values m.used n s).2.2
            ((s + n) % m.dataSize) false j = true := hju
        have hjk2 : Function.update
            (eraseShiftLoop (m.dataSize - 1) m.keys m.values m.used n s).1
            ((s + n) % m.dataSize) m.defaultKey j = k := hjk
        by_cases hjl : j = (s + n) % m.dataSize
        · subst hjl
          rw [Function.update_same] at hju2
          exact absurd hju2 (by simp)
        · rw [Function.update_noteq hjl] at hju2
          rw [Function.update_noteq hjl] at hjk2
          by_cases hjp : ∃ t, t < n ∧ j = (s + t) % m.dataSize
          · obtain ⟨t, ht, hjt⟩ := hjp
            subst hjt
            rw [(hshmain t ht).1] at hjk2
            rw [(hshmain t ht).2.2] at hju2
            have hx : (s + t + 1) % m.dataSize < m.dataSize :=
              mod_lt_ds hpos _
            have hxs : (s + t + 1) % m.dataSize = s :=
              hwc.distinct _ hx s hslt hju2 hus (by rw [hjk2, hks])
            have hs0 : (s + 0) % m.dataSize = s := by
              simp [Nat.mod_eq_of_lt hslt]
            have : t + 1 = 0 := by
              refine pos_inj hpos s (by omega) (by omega) ?_
              rw [hs0, ← hxs]
              congr 1
              omega
            omega
          · push_neg at hjp
            have hun := hshun j (fun t ht => hjp t ht)
            rw [hun.1] at hjk2
            rw [hun.2.2] at hju2
            have hjs : j = s :=
              hwc.distinct j hj s hslt hju2 hus (by rw [hjk2, hks])
            have hs0 : (s + 0) % m.dataSize = s := by
              simp [Nat.mod_eq_of_lt hslt]
            exact hjp 0 (by omega) (by rw [hs0]; exact hjs)
      have hfree2 : ∃ u, u < m.dataSize ∧
          (Function.update
            (eraseShiftLoop (m.dataSize - 1) m.keys m.values m.used n s).2.2
            ((s + n) % m.dataSize) false) u = false :=
        ⟨(s + n) % m.dataSize, hlast, Function.update_same
          ((s + n) % m.dataSize) false
          (eraseShiftLoop (m.dataSize - 1) m.keys m.values m.used n s).2.2⟩
      exact (@lookup_of_not_hasKey K V _ { m with
          keys := Function.update
            (eraseShiftLoop (m.dataSize - 1) m.keys m.values m.used n s).1
            ((s + n) % m.dataSize) m.defaultKey
          values := Function.update
            (eraseShiftLoop (m.dataSize - 1) m.keys m.values m.used n s).2.1
            ((s + n) % m.dataSize) m.defaultValue
          used := Function.update
            (eraseShiftLoop (m.dataSize - 1) m.keys m.values m.used n s).2.2
            ((s + n) % m.dataSize) false
          count := m.count - 1 } ⟨e, hds⟩ hpos hfree2 k hnokey).1
    · -- the shifted entries
      intro t ht
      have hne : (s + t) % m.dataSize ≠ (s + n) % m.dataSize := by
        intro hcon
        have := pos_inj hpos s (by omega) (by omega) hcon
        omega
      refine ⟨?_, ?_, ?_⟩
      · have h1 : Function.update
            (eraseShiftLoop (m.dataSize - 1) m.keys m.values m.used n s).1
            ((s + n) % m.dataSize) m.defaultKey ((s + t) % m.dataSize) =
            (eraseShiftLoop (m.dataSize - 1) m.keys m.values m.used n s).1
            ((s + t) % m.dataSize) :=
          Function.update_noteq hne _ _
        exact h1.trans (hshmain t ht).1
      · have h1 : Function.update
            (eraseShiftLoop (m.dataSize - 1) m.keys m.values m.used n s).2.1
            ((s + n) % m.dataSize) m.defaultValue ((s + t) % m.dataSize) =
            (eraseShiftLoop (m.dataSize - 1) m.keys m.values m.used n s).2.1
            ((s + t) % m.dataSize) :=
          Function.update_noteq hne _ _
        exact h1.trans (hshmain t ht).2.1
      · have h1 : Function.update
            (eraseShiftLoop (m.dataSize - 1) m.keys m.values m.used n s).2.2
            ((s + n) % m.dataSize) false ((s + t) % m.dataSize) =
            (eraseShiftLoop (m.dataSize - 1) m.keys m.values m.used n s).2.2
            ((s + t) % m.dataSize) :=
          Function.update_noteq hne _ _
        exact h1.trans (hshmain t ht).2.2
    · -- the vacated slot
      exact Function.update_same ((s + n) % m.dataSize) false
        (eraseShiftLoop (m.dataSize - 1) m.keys m.values m.used n s).2.2

end LinearCoreMap

/-! ## Claims C2 and C4 — deletion -/

/-- A concrete capacity-8 integer table: keys 0 and 8 share home slot 5
(stored at 5 and 6), key 13 has home slot 6 (stored at 7). -/
def mapABC : LinearCoreMap Nat Nat :=
  { hash := IntHash, count := 3, dataSize := 8,
    keys := Function.update (Function.update
      (Function.update (fun _ => 0) 5 0) 6 8) 7 13,
    values := Function.update (Function.update
      (Function.update (fun _ => 0) 5 100) 6 108) 7 113,
    used := Function.update (Function.update
      (Function.update (fun _ => false) 5 true) 6 true) 7 true,
    defaultKey := 0, defaultValue := 0 }

theorem wf_mapABC : LinearCoreMap.Wf mapABC := by
  refine ⟨⟨⟨3, by decide⟩, by decide, ?_, by decide, by decide, by decide⟩,
    by decide⟩
  intro i hi
  have hi8 : 8 ≤ i := hi
  show Function.update (Function.update
    (Function.update (fun _ => false) 5 true) 6 true) 7 true i = false
  rw [Function.update_noteq (by omega), Function.update_noteq (by omega),
    Function.update_noteq (by omega)]

/-- Claim C2, counterexample: insert keys 0, 8 (both home slot 5) and 13
(home slot 6); erase key 0.  `Erase` returns `true`, but key 13 — inserted
with value 113 and never erased — is no longer reachable: `Contains 13`
answers `false` and `Get 13` returns the default sentinel 0.  The shift
moved only key 8 (same home as key 0), emptied slot 6, and key 13 at slot 7
now probes from home 6 into an unoccupied slot. -/
theorem c2_counterexample :
    ((((mapInit8.Emplace 0 100).bind (fun m => m.Emplace 8 108)).bind
        (fun m => m.Emplace 13 113)).bind
      (fun m => (m.Erase 0).map (fun r =>
        (r.1, r.2.Contains 13, r.2.Get 13, r.2.Contains 0, r.2.Size)))) =
      some (true, some false, some 0, some false, 2) := by
  decide

/-- Claim C2 (amended: after `Erase(key)` returns `true`, `Contains(key)` is
`false` and `Size()` drops by one; no reachability guarantee for the other
previously inserted keys survives — the shift loop moves back only the
contiguous run just past the found slot whose home equals the found index,
so any other key whose probe chain crossed the vacated slot, from the same
or a different home cluster, can be stranded, as the counterexample shows):
proved for any key found `inc` probe steps past its home without wrapping
past the end of the backing array, on any well-formed table of capacity at
most `2^63`. -/
theorem c2_amended_erase_found {K V : Type} [DecidableEq K]
    (m : LinearCoreMap K V) (hw : LinearCoreMap.Wf m) (k : K) (inc : Nat)
    (hfind : LinearCoreMap.eraseFindLoop m.used m.keys k (m.dataSize - 1)
      m.dataSize (m.home k) 0 = some (some inc))
    (hnw : m.home k + inc + 1 < m.dataSize) (hb : m.dataSize ≤ 2 ^ 63) :
    ∃ m2, m.Erase k = some (true, m2) ∧ m2.Contains k = some false ∧
      m2.Size = m.Size - 1 := by
  obtain ⟨n, m2, _, _, _, _, hera, hc, _, hcont, _, _⟩ :=
    LinearCoreMap.Erase_found_spec m hw k inc (m.home k + inc) rfl hfind
      (by omega) hb
  exact ⟨m2, hera, hcont, hc⟩

theorem c2_witness :
    ∃ m2, mapABC.Erase 0 = some (true, m2) ∧ m2.Contains 0 = some false ∧
      m2.Size = mapABC.Size - 1 :=
  c2_amended_erase_found mapABC wf_mapABC 0 0 (by decide) (by decide)
    (by decide)

/-- Claim C4, counterexample: erase key 8 from `mapABC`.  The key is found
at slot 6 (one probe step past its home slot 5).  The count loop then
counts exactly one entry — slot 7, key 13 — because key 13's home index (6)
equals the *index of the slot where key 8 was found*, even though it
differs from the deleted key's own home index (5).  Under the claim's
reading ("home index equals the home index of slot i's key, members of the
same original probe-start cluster as the deleted key") the counted run
would be empty; the code counts and shifts key 13. -/
theorem c4_counterexample :
    mapABC.eraseCountLoop 6 8 7 0 = some 1 ∧
    mapABC.used 7 = true ∧
    homeOf mapABC.hash (mapABC.keys 7) 8 = 6 ∧
    homeOf mapABC.hash (mapABC.keys 6) 8 = 5 ∧
    homeOf mapABC.hash (mapABC.keys 7) 8 ≠
      homeOf mapABC.hash (mapABC.keys 6) 8 ∧
    (mapABC.Erase 8).map (fun r => (r.1, r.2.keys 6, r.2.used 7)) =
      some (true, 13, false) := by
  decide

/-- Claim C4 (amended: the entries counted — and then shifted back by one
slot — are exactly the contiguous run of occupied slots starting at `i + 1`
(wrapping) whose home index equals `i`, the *index of the slot at which the
deleted key was found*; this coincides with the deleted key's own home
cluster only when the key sits at its home slot): the count loop returns
the length `n` of that run, the slot just past the run breaks the
condition, and `Erase` shifts exactly those `n` entries back one slot and
clears the vacated slot. -/
theorem c4_amended_count_and_shift {K V : Type} [DecidableEq K]
    (m : LinearCoreMap K V) (hw : LinearCoreMap.Wf m) (k : K) (inc s : Nat)
    (hseq : s = m.home k + inc)
    (hfind : LinearCoreMap.eraseFindLoop m.used m.keys k (m.dataSize - 1)
      m.dataSize (m.home k) 0 = some (some inc))
    (hnw : s + 1 < m.dataSize) (hb : m.dataSize ≤ 2 ^ 63) :
    ∃ n m2, LinearCoreMap.eraseCountLoop m s m.dataSize (s + 1) 0 = some n ∧
      (∀ t, t < n → m.used ((s + 1 + t) % m.dataSize) = true ∧
        homeOf m.hash (m.keys ((s + 1 + t) % m.dataSize)) m.dataSize = s) ∧
      ¬(m.used ((s + 1 + n) % m.dataSize) = true ∧
        homeOf m.hash (m.keys ((s + 1 + n) % m.dataSize)) m.dataSize = s) ∧
      m.Erase k = some (true, m2) ∧
      (∀ t, t < n →
        m2.keys ((s + t) % m.dataSize) = m.keys ((s + t + 1) % m.dataSize) ∧
        m2.values ((s + t) % m.dataSize) =
          m.values ((s + t + 1) % m.dataSize) ∧
        m2.used ((s + t) % m.dataSize) = m.used ((s + t + 1) % m.dataSize)) ∧
      m2.used ((s + n) % m.dataSize) = false := by
  obtain ⟨n, m2, hcnt, _, hrun, hbrk, hera, _, _, _, hshift, hvac⟩ :=
    LinearCoreMap.Erase_found_spec m hw k inc s hseq hfind hnw hb
  exact ⟨n, m2, hcnt, hrun, hbrk, hera, hshift, hvac⟩

theorem c4_witness :
    ∃ n m2, LinearCoreMap.eraseCountLoop mapABC 6 mapABC.dataSize (6 + 1) 0 =
        some n ∧
      (∀ t, t < n → mapABC.used ((6 + 1 + t) % mapABC.dataSize) = true ∧
        homeOf mapABC.hash (mapABC.keys ((6 + 1 + t) % mapABC.dataSize))
          mapABC.dataSize = 6) ∧
      ¬(mapABC.used ((6 + 1 + n) % mapABC.dataSize) = true ∧
        homeOf mapABC.hash (mapABC.keys ((6 + 1 + n) % mapABC.dataSize))
          mapABC.dataSize = 6) ∧
      mapABC.Erase 8 = some (true, m2) ∧
      (∀ t, t < n →
        m2.keys ((6 + t) % mapABC.dataSize) =
          mapABC.keys ((6 + t + 1) % mapABC.dataSize) ∧
        m2.values ((6 + t) % mapABC.dataSize) =
          mapABC.values ((6 + t + 1) % mapABC.dataSize) ∧
        m2.used ((6 + t) % mapABC.dataSize) =
          mapABC.used ((6 + t + 1) % mapABC.dataSize)) ∧
      m2.used ((6 + n) % mapABC.dataSize) = false :=
  c4_amended_count_and_shift mapABC wf_mapABC 8 1 6 (by decide) (by decide)
    (by decide) (by decide)

/-! ## Claim C9 — the set variant's Emplace on a present key -/

/-- A fresh `LinearSet<int>`-style set with capacity 8. -/
def setInit8 : LinearSet Nat := LinearSet.init IntHash 0 8

/-- Claim C9: the code contradicts it.  `LinearSet::Emplace` scans only for
the first unoccupied slot — unlike the map engine's `Emplace` and the set's
own `TryEmplace`, its loop has no `m_keys[i] == key` branch — so emplacing
key 1 twice stores the key in two slots (2 and 3; home of key 1 is 2) and
`Size()` becomes 2.  The map engine on the same double insert keeps size 1,
and `LinearSet::TryEmplace` on the duplicate returns `false` and leaves the
set unchanged. -/
theorem c9_set_emplace_duplicates :
    (((setInit8.Emplace 1).bind (fun q => q.Emplace 1)).map
      (fun q => (q.count, q.keys 2, q.keys 3, q.used 2, q.used 3)) =
      some (2, 1, 1, true, true)) ∧
    (((mapInit8.Emplace 1 7).bind (fun m => m.Emplace 1 9)).map
      (fun m => (m.count, m.Get 1)) = some (1, some 9)) ∧
    ((setInit8.Emplace 1).bind (fun q => (q.TryEmplace 1).map
      (fun r => (r.1, r.2.count))) = some (false, 1)) := by
  decide

/-! ## Claim C10 — the raw-pointer EmplaceAll guard -/

/-- Claim C10: the raw-pointer `EmplaceAll(keys, values, count)` overload
returns the table unchanged — same contents, count and capacity — when the
keys pointer is null, the values pointer is null, or the count is zero:
the guard precedes `EnsureCapacity` and every insertion. -/
theorem c10_emplaceAllPtr_guard {K V : Type} [DecidableEq K]
    (m : LinearCoreMap K V) (keys? : Option (List K))
    (values? : Option (List V)) (count : Nat)
    (h : keys? = none ∨ values? = none ∨ count = 0) :
    m.EmplaceAllPtr keys? values? count = some m := by
  rcases h with h | h | h
  · subst h
    cases values? <;> rfl
  · subst h
    cases keys? <;> rfl
  · subst h
    cases keys? with
    | none => rfl
    | some ks =>
      cases values? with
      | none => rfl
      | some vs =>
        show (if (0 : Nat) = 0 then some m
          else match m.EnsureCapacity 0 with
            | some m1 => LinearCoreMap.emplaceAllPtrLoop ks vs m.defaultKey
                m.defaultValue (List.range 0) m1
            | none => none) = some m
        rw [if_pos rfl]

theorem c10_witness :
    mapInit8.EmplaceAllPtr none (some [1]) 1 = some mapInit8 ∧
    mapInit8.EmplaceAllPtr (some [1]) none 1 = some mapInit8 ∧
    mapInit8.EmplaceAllPtr (some [1]) (some [2]) 0 = some mapInit8 :=
  ⟨c10_emplaceAllPtr_guard mapInit8 none (some [1]) 1 (Or.inl rfl),
   c10_emplaceAllPtr_guard mapInit8 (some [1]) none 1 (Or.inr (Or.inl rfl)),
   c10_emplaceAllPtr_guard mapInit8 (some [1]) (some [2]) 0
     (Or.inr (Or.inr rfl))⟩

/-! ## C6: the capacity invariant -/

/-- The spec's capacity invariant: `m_data_size` is a power of two and at
least 8. -/
def CapOk {K V : Type} (m : LinearCoreMap K V) : Prop :=
  (∃ e, m.dataSize = 2 ^ e) ∧ 8 ≤ m.dataSize

namespace LinearCoreMap

variable {K V : Type} [DecidableEq K]

theorem capok_of_ds_eq {m m2 : LinearCoreMap K V} (h : CapOk m)
    (hds : m2.dataSize = m.dataSize) : CapOk m2 := by
  obtain ⟨⟨e, he⟩, h8⟩ := h
  exact ⟨⟨e, hds.trans he⟩, by rw [hds]; exact h8⟩

theorem capok_of_ds_double {m m2 : LinearCoreMap K V} (h : CapOk m)
    (hds : m2.dataSize = m.dataSize * 2) : CapOk m2 := by
  obtain ⟨⟨e, he⟩, h8⟩ := h
  refine ⟨⟨e + 1, ?_⟩, ?_⟩
  · rw [hds, he, pow_succ]
  · rw [hds]; omega

theorem capok_of_format {m2 : LinearCoreMap K V} {c : Nat}
    (hds : m2.dataSize = FormatCapacity c) : CapOk m2 := by
  obtain ⟨e, he⟩ := FormatCapacity_pow c
  exact ⟨⟨e, hds.trans he⟩, by rw [hds]; exact FormatCapacity_ge_8 c⟩

/-- `Resize` installs exactly the requested capacity when it succeeds. -/
theorem Resize_dataSize (m : LinearCoreMap K V) (ns : Nat)
    (m2 : LinearCoreMap K V) (h : m.Resize ns = some m2) :
    m2.dataSize = ns := by
  unfold Resize at h
  cases hr : resizeLoop m ns (List.range m.dataSize)
      { kn := fun _ => m.defaultKey, vn := fun _ => m.defaultValue,
        un := fun _ => false } with
  | none => rw [hr] at h; exact Option.noConfusion h
  | some a =>
    rw [hr] at h
    have h3 : ns = m2.dataSize :=
      congrArg (fun x => x.dataSize) (Option.some.inj h)
    exact h3.symm

theorem Insert_dataSize (m : LinearCoreMap K V) (key : K) (value : V)
    (i : Nat) (m2 : LinearCoreMap K V) (h : m.Insert key value i = some m2) :
    m2.dataSize = m.dataSize ∨ m2.dataSize = m.dataSize * 2 := by
  simp only [Insert] at h
  by_cases hg : growCheck (m.InsertNoGrow key value i).count
      (m.InsertNoGrow key value i).dataSize
  · rw [if_pos hg] at h
    right
    exact Resize_dataSize _ _ _ h
  · rw [if_neg hg] at h
    left
    have h3 : m.dataSize = m2.dataSize :=
      congrArg (fun x => x.dataSize) (Option.some.inj h)
    exact h3.symm

theorem InsertAndGrow_dataSize (m : LinearCoreMap K V) (key : K) (value : V)
    (i : Nat) (m2 : LinearCoreMap K V)
    (h : m.InsertAndGrow key value i = some m2) :
    m2.dataSize = m.dataSize * 2 := by
  simp only [InsertAndGrow] at h
  exact Resize_dataSize _ _ _ h

theorem Emplace_dataSize (m : LinearCoreMap K V) (key : K) (value : V)
    (m2 : LinearCoreMap K V) (h : m.Emplace key value = some m2) :
    m2.dataSize = m.dataSize ∨ m2.dataSize = m.dataSize * 2 := by
  cases hp : m.probe key with
  | none => simp only [Emplace, hp] at h; exact Option.noConfusion h
  | some hit =>
    cases hit with
    | empty i =>
      simp only [Emplace, hp] at h
      exact Insert_dataSize _ _ _ _ _ h
    | found i =>
      simp only [Emplace, hp] at h
      left
      have h3 : m.dataSize = m2.dataSize :=
        congrArg (fun x => x.dataSize) (Option.some.inj h)
      exact h3.symm

theorem TryEmplaceImpl_dataSize (m : LinearCoreMap K V) (key : K)
    (mk : Unit → V) (b : Bool) (m2 : LinearCoreMap K V)
    (h : m.TryEmplaceImpl key mk = some (b, m2)) :
    m2.dataSize = m.dataSize ∨ m2.dataSize = m.dataSize * 2 := by
  cases hp : m.probe key with
  | none => simp only [TryEmplaceImpl, hp] at h; exact Option.noConfusion h
  | some hit =>
    cases hit with
    | empty i =>
      simp only [TryEmplaceImpl, hp] at h
      cases hi : m.Insert key (mk ()) i with
      | none => rw [hi] at h; exact Option.noConfusion h
      | some m3 =>
        rw [hi] at h
        have h3 : m3 = m2 :=
          congrArg (fun p => p.2) (Option.some.inj h)
        rw [← h3]
        exact Insert_dataSize _ _ _ _ _ hi
    | found i =>
      simp only [TryEmplaceImpl, hp] at h
      left
      have h3 : m.dataSize = m2.dataSize :=
        congrArg (fun p => p.2.dataSize) (Option.some.inj h)
      exact h3.symm

theorem GetOrCreateImpl_dataSize (m : LinearCoreMap K V) (key : K)
    (mk : Unit → V) (v : V) (m2 : LinearCoreMap K V)
    (h : m.GetOrCreateImpl key mk = some (v, m2)) :
    m2.dataSize = m.dataSize ∨ m2.dataSize = m.dataSize * 2 := by
  cases hp : m.probe key with
  | none => simp only [GetOrCreateImpl, hp] at h; exact Option.noConfusion h
  | some hit =>
    cases hit with
    | found i =>
      simp only [GetOrCreateImpl, hp] at h
      left
      have h3 : m.dataSize = m2.dataSize :=
        congrArg (fun p => p.2.dataSize) (Option.some.inj h)
      exact h3.symm
    | empty i =>
      simp only [GetOrCreateImpl, hp] at h
      by_cases hc : m.count + 1 > lfNum * m.dataSize / lfDen
      · rw [if_pos hc] at h
        cases hg : m.InsertAndGrow key (mk ()) i with
        | none => rw [hg] at h; exact Option.noConfusion h
        | some m3 =>
          simp only [hg] at h
          cases hk : keyScanLoop m3.keys key (m3.GetSlot key m3.dataSize).2
              m3.dataSize (m3.GetSlot key m3.dataSize).1 with
          | none => rw [hk] at h; exact Option.noConfusion h
          | some j =>
            rw [hk] at h
            have h3 : m3 = m2 :=
              congrArg (fun p => p.2) (Option.some.inj h)
            right
            rw [← h3]
            exact InsertAndGrow_dataSize _ _ _ _ _ hg
      · rw [if_neg hc] at h
        left
        have h3 : m.dataSize = m2.dataSize :=
          congrArg (fun p => p.2.dataSize) (Option.some.inj h)
        exact h3.symm

theorem EmplaceNoGrow_dataSize (m : LinearCoreMap K V) (key : K) (value : V)
    (m2 : LinearCoreMap K V) (h : m.EmplaceNoGrow key value = some m2) :
    m2.dataSize = m.dataSize := by
  cases hp : m.probe key with
  | none => simp only [EmplaceNoGrow, hp] at h; exact Option.noConfusion h
  | some hit =>
    cases hit with
    | empty i =>
      simp only [EmplaceNoGrow, hp] at h
      have h3 : m.dataSize = m2.dataSize :=
        congrArg (fun x => x.dataSize) (Option.some.inj h)
      exact h3.symm
    | found i =>
      simp only [EmplaceNoGrow, hp] at h
      have h3 : m.dataSize = m2.dataSize :=
        congrArg (fun x => x.dataSize) (Option.some.inj h)
      exact h3.symm

theorem emplaceAllPtrLoop_dataSize (ks : List K) (vs : List V) (dk : K)
    (dv : V) : ∀ (l : List Nat) (m m2 : LinearCoreMap K V),
    emplaceAllPtrLoop ks vs dk dv l m = some m2 → m2.dataSize = m.dataSize
  | [], m, m2, h => by
    have h3 : m.dataSize = m2.dataSize :=
      congrArg (fun x => x.dataSize) (Option.some.inj h)
    exact h3.symm
  | idx :: rest, m, m2, h => by
    unfold emplaceAllPtrLoop at h
    cases he : m.EmplaceNoGrow (ks.getD idx dk) (vs.getD idx dv) with
    | none => rw [he] at h; exact Option.noConfusion h
    | some m1 =>
      rw [he] at h
      have hds1 : m1.dataSize = m.dataSize :=
        EmplaceNoGrow_dataSize _ _ _ _ he
      have hds2 : m2.dataSize = m1.dataSize :=
        emplaceAllPtrLoop_dataSize ks vs dk dv rest m1 m2 h
      rw [hds2, hds1]

theorem EnsureCapacity_capok (m : LinearCoreMap K V) (c : Nat)
    (m2 : LinearCoreMap K V) (hm : CapOk m)
    (h : m.EnsureCapacity c = some m2) : CapOk m2 := by
  simp only [EnsureCapacity] at h
  by_cases hlt : c < (m.dataSize + u64 - m.count) % u64 * lfNum / lfDen
  · rw [if_pos hlt] at h
    have h3 : m.dataSize = m2.dataSize :=
      congrArg (fun x => x.dataSize) (Option.some.inj h)
    exact capok_of_ds_eq hm h3.symm
  · rw [if_neg hlt] at h
    exact capok_of_format (Resize_dataSize _ _ _ h)

theorem EmplaceAllPtr_capok (m : LinearCoreMap K V) (keys? : Option (List K))
    (values? : Option (List V)) (c : Nat) (m2 : LinearCoreMap K V)
    (hm : CapOk m) (h : m.EmplaceAllPtr keys? values? c = some m2) :
    CapOk m2 := by
  cases keys? with
  | none =>
    have h3 : m.dataSize = m2.dataSize :=
      congrArg (fun x => x.dataSize) (Option.some.inj h)
    exact capok_of_ds_eq hm h3.symm
  | some ks =>
    cases values? with
    | none =>
      have h3 : m.dataSize = m2.dataSize :=
        congrArg (fun x => x.dataSize) (Option.some.inj h)
      exact capok_of_ds_eq hm h3.symm
    | some vs =>
      simp only [EmplaceAllPtr] at h
      by_cases hc : c = 0
      · rw [if_pos hc] at h
        have h3 : m.dataSize = m2.dataSize :=
          congrArg (fun x => x.dataSize) (Option.some.inj h)
        exact capok_of_ds_eq hm h3.symm
      · rw [if_neg hc] at h
        cases he : m.EnsureCapacity c with
        | none => rw [he] at h; exact Option.noConfusion h
        | some m1 =>
          rw [he] at h
          have hm1 : CapOk m1 := EnsureCapacity_capok m c m1 hm he
          exact capok_of_ds_eq hm1
            (emplaceAllPtrLoop_dataSize ks vs m.defaultKey m.defaultValue
              (List.range c) m1 m2 h)

theorem Erase_dataSize (m : LinearCoreMap K V) (key : K) (b : Bool)
    (m2 : LinearCoreMap K V) (h : m.Erase key = some (b, m2)) :
    m2.dataSize = m.dataSize := by
  cases hf : eraseFindLoop m.used m.keys key (m.GetSlot key m.dataSize).2
      m.dataSize (m.GetSlot key m.dataSize).1 0 with
  | none => simp only [Erase, hf] at h; exact Option.noConfusion h
  | some o =>
    cases o with
    | none =>
      simp only [Erase, hf] at h
      have h3 : m.dataSize = m2.dataSize :=
        congrArg (fun p => p.2.dataSize) (Option.some.inj h)
      exact h3.symm
    | some inc =>
      simp only [Erase, hf] at h
      cases hc : eraseCountLoop m ((m.GetSlot key m.dataSize).1 + inc)
          m.dataSize ((m.GetSlot key m.dataSize).1 + inc + 1) 0 with
      | none => rw [hc] at h; exact Option.noConfusion h
      | some keysAbove =>
        simp only [hc] at h
        by_cases hk : keysAbove = 0
        · rw [if_pos hk] at h
          have h3 : m.dataSize = m2.dataSize :=
            congrArg (fun p => p.2.dataSize) (Option.some.inj h)
          exact h3.symm
        · rw [if_neg hk] at h
          have h3 : m.dataSize = m2.dataSize :=
            congrArg (fun p => p.2.dataSize) (Option.some.inj h)
          exact h3.symm

theorem Rehash_dataSize (m : LinearCoreMap K V) (c : Nat)
    (m2 : LinearCoreMap K V) (h : m.Rehash c = some (Except.ok m2)) :
    m2.dataSize = FormatCapacity c := by
  simp only [Rehash] at h
  by_cases hlt : FormatCapacity c < m.count
  · rw [if_pos hlt] at h
    have h2 := Option.some.inj h
    exact Except.noConfusion h2
  · rw [if_neg hlt] at h
    cases hr : m.Resize (FormatCapacity c) with
    | none => rw [hr] at h; exact Option.noConfusion h
    | some m3 =>
      rw [hr] at h
      have h3 : m3 = m2 := Except.ok.inj (Option.some.inj h)
      rw [← h3]
      exact Resize_dataSize _ _ _ hr

end LinearCoreMap

/-- C6: after construction (`Init` goes through `Reserve`) and after every
public operation — `Clear`, `Emplace`, `TryEmplace`, `GetOrCreate`, the
raw-pointer `EmplaceAll`, `Erase`, and a successful `Rehash` — the capacity
`m_data_size` is a power of two at least 8; and under that invariant every
probe-index computation reduces modulo the capacity via the bitwise AND
with `capacity - 1` (the home slot is in range, and `x & (capacity - 1)`
equals `x % capacity` and is below the capacity), so probing never produces
an index outside the table. -/
theorem c6_capacity_invariant {K V : Type} [DecidableEq K] :
    (∀ (hashF : K → Nat) (dk : K) (dv : V) (c : Nat),
      CapOk (LinearCoreMap.init hashF dk dv c)) ∧
    (∀ (m : LinearCoreMap K V) (c : Nat), CapOk (m.Reserve c)) ∧
    (∀ m : LinearCoreMap K V, CapOk m → CapOk m.Clear) ∧
    (∀ (m m2 : LinearCoreMap K V) (k : K) (v : V), CapOk m →
      m.Emplace k v = some m2 → CapOk m2) ∧
    (∀ (m m2 : LinearCoreMap K V) (k : K) (mkV : Unit → V) (b : Bool),
      CapOk m → m.TryEmplaceImpl k mkV = some (b, m2) → CapOk m2) ∧
    (∀ (m m2 : LinearCoreMap K V) (k : K) (mkV : Unit → V) (v : V),
      CapOk m → m.GetOrCreateImpl k mkV = some (v, m2) → CapOk m2) ∧
    (∀ (m m2 : LinearCoreMap K V) (ks : Option (List K))
      (vs : Option (List V)) (c : Nat), CapOk m →
      m.EmplaceAllPtr ks vs c = some m2 → CapOk m2) ∧
    (∀ (m m2 : LinearCoreMap K V) (k : K) (b : Bool), CapOk m →
      m.Erase k = some (b, m2) → CapOk m2) ∧
    (∀ (m m2 : LinearCoreMap K V) (c : Nat), CapOk m →
      m.Rehash c = some (Except.ok m2) → CapOk m2) ∧
    (∀ (m : LinearCoreMap K V) (k : K) (x : Nat), CapOk m →
      m.home k < m.dataSize ∧
      x &&& (m.dataSize - 1) = x % m.dataSize ∧
      x &&& (m.dataSize - 1) < m.dataSize) := by
  refine ⟨?_, ?_, ?_, ?_, ?_, ?_, ?_, ?_, ?_, ?_⟩
  · intro hashF dk dv c
    exact LinearCoreMap.capok_of_format rfl
  · intro m c
    exact LinearCoreMap.capok_of_format rfl
  · intro m hm
    exact LinearCoreMap.capok_of_ds_eq hm rfl
  · intro m m2 k v hm h
    rcases LinearCoreMap.Emplace_dataSize m k v m2 h with hds | hds
    · exact LinearCoreMap.capok_of_ds_eq hm hds
    · exact LinearCoreMap.capok_of_ds_double hm hds
  · intro m m2 k mkV b hm h
    rcases LinearCoreMap.TryEmplaceImpl_dataSize m k mkV b m2 h with hds | hds
    · exact LinearCoreMap.capok_of_ds_eq hm hds
    · exact LinearCoreMap.capok_of_ds_double hm hds
  · intro m m2 k mkV v hm h
    rcases LinearCoreMap.GetOrCreateImpl_dataSize m k mkV v m2 h with hds | hds
    · exact LinearCoreMap.capok_of_ds_eq hm hds
    · exact LinearCoreMap.capok_of_ds_double hm hds
  · intro m m2 ks vs c hm h
    exact LinearCoreMap.EmplaceAllPtr_capok m ks vs c m2 hm h
  · intro m m2 k b hm h
    exact LinearCoreMap.capok_of_ds_eq hm (LinearCoreMap.Erase_dataSize m k b m2 h)
  · intro m m2 c hm h
    exact LinearCoreMap.capok_of_format (LinearCoreMap.Rehash_dataSize m c m2 h)
  · intro m k x hm
    obtain ⟨⟨e, hds⟩, h8⟩ := hm
    have hpos : 0 < m.dataSize := by omega
    refine ⟨LinearCoreMap.home_lt ⟨e, hds⟩ hpos k, mask_lt_of_pow hds x, ?_⟩
    rw [mask_lt_of_pow hds x]
    exact mod_lt_ds hpos x

theorem c6_witness :
    CapOk (LinearCoreMap.init IntHash (0 : Nat) (0 : Nat) 10) ∧
    CapOk (mapInit8.Reserve 9) ∧
    CapOk mapInit8.Clear ∧
    mapInit8.home 5 < mapInit8.dataSize ∧
    (11 : Nat) &&& (mapInit8.dataSize - 1) = 11 % mapInit8.dataSize := by
  obtain ⟨h1, h2, h3, _, _, _, _, _, _, h10⟩ :=
    @c6_capacity_invariant Nat Nat _
  have hcap : CapOk mapInit8 := ⟨⟨3, rfl⟩, by decide⟩
  exact ⟨h1 IntHash 0 0 10, h2 mapInit8 9, h3 mapInit8 hcap,
    (h10 mapInit8 5 11 hcap).1, (h10 mapInit8 5 11 hcap).2.1⟩
